import Mathlib

set_option maxHeartbeats 1000000

/-! Verification development for the query-tls ingestion Lambda (index.js,
later revision unless noted).  The development embeds, as executable Lean
functions: JavaScript/JSON values and the JS coercions the code relies on,
the json-logic-js operator subset exercised by the rule catalog, the record
partitioner `parseResult` with its field normaliser, the day derivation
`getDay`, the rule-catalog loader `getRules`, the rule evaluator
`processRules`, and the enroll/log shared-secret authentication. -/

/-- JavaScript/JSON values as used by the pipeline.  `undef` models the
JavaScript `undefined` value (distinct from JSON `null`).  Numbers are
modelled on the integer fragment: every number appearing in the records and
rules of this code base is an integer or an integer-valued string.  Objects
are insertion-ordered key/value lists, as JavaScript objects are; every
object the code builds has unique keys. -/
inductive JVal where
  | undef
  | null
  | bool (b : Bool)
  | num (n : Int)
  | str (s : String)
  | arr (elems : List JVal)
  | obj (fields : List (String × JVal))

/-- JavaScript property read `o[k]` on an insertion-ordered object model:
first matching key (JS objects have unique keys, so first = only). -/
def alookup {α : Type} : List (String × α) → String → Option α
  | [], _ => none
  | (k, v) :: rest, key => if k = key then some v else alookup rest key

/-- JavaScript assignment `o[k] = v`: overwrites in place when the key exists
(keeping its original position, as JS does), otherwise appends the entry. -/
def objSet {α : Type} : List (String × α) → String → α → List (String × α)
  | [], key, v => [(key, v)]
  | (k, w) :: rest, key, v =>
      if k = key then (k, v) :: rest else (k, w) :: objSet rest key v

/-- Plain JavaScript truthiness (`if (x)`, `x && y`): undefined, null, false,
0 and the empty string are falsy; every object — including the empty array —
is truthy. -/
def jsTruthy : JVal → Bool
  | .undef => false
  | .null => false
  | .bool b => b
  | .num n => n != 0
  | .str s => s != ""
  | .arr _ => true
  | .obj _ => true

/-- json-logic-js truthiness: like JavaScript except that the empty array is
falsy (jsonLogic.truthy). -/
def jlTruthy : JVal → Bool
  | .arr [] => false
  | v => jsTruthy v

/-- White space as trimmed by JavaScript (the characters relevant here). -/
def isJsSpace (c : Char) : Bool :=
  c = ' ' || c = '\t' || c = '\n' || c = '\r' || c = '\x0b' || c = '\x0c'

/-- String.prototype.trim on a character list. -/
def trimChars (cs : List Char) : List Char :=
  ((cs.dropWhile isJsSpace).reverse.dropWhile isJsSpace).reverse

/-- String.prototype.split with a one-character separator (used for the
dotted paths of `var` and the comma-separated secret list). -/
def splitChar (sep : Char) : List Char → List Char → List (List Char)
  | [], acc => [acc.reverse]
  | c :: rest, acc =>
      if c = sep then acc.reverse :: splitChar sep rest []
      else splitChar sep rest (c :: acc)

/-- JavaScript `Number(string)` on the integer fragment: the trimmed empty
string is 0, an optionally signed run of decimal digits is its value, and
everything else is NaN (`none`).  Model boundary: non-integer numeric
strings ("1.5", hex forms) are treated as NaN, since the model has integer
numbers only. -/
def strToNum (s : String) : Option Int :=
  let t := trimChars s.toList
  if t = [] then some 0
  else
    let (sign, digits) : Int × List Char :=
      match t with
      | '-' :: rest => (-1, rest)
      | '+' :: rest => (1, rest)
      | l => (1, l)
    if digits ≠ [] ∧ digits.all Char.isDigit then
      some (sign * Int.ofNat (digits.foldl (fun acc c => acc * 10 + (c.toNat - 48)) 0))
    else none

mutual
/-- JavaScript `String(v)`.  Arrays stringify as their elements joined by
commas (with null/undefined elements contributing the empty string); plain
objects stringify as "[object Object]". -/
def jsToString : JVal → String
  | .undef => "undefined"
  | .null => "null"
  | .bool true => "true"
  | .bool false => "false"
  | .num n => toString n
  | .str s => s
  | .arr xs => arrJoin xs
  | .obj _ => "[object Object]"

def arrJoin : List JVal → String
  | [] => ""
  | [x] => elemStr x
  | x :: y :: rest => elemStr x ++ "," ++ arrJoin (y :: rest)

def elemStr : JVal → String
  | .null => ""
  | .undef => ""
  | v => jsToString v
end

/-- JavaScript `ToNumber`, `none` standing for NaN. -/
def jsToNumber : JVal → Option Int
  | .undef => none
  | .null => some 0
  | .bool b => some (if b then 1 else 0)
  | .num n => some n
  | .str s => strToNum s
  | .arr xs => strToNum (jsToString (.arr xs))
  | .obj _ => none

/-- JavaScript `ToPrimitive` with default hint as it occurs in `==` and `<`:
arrays and objects become their string form, primitives are unchanged. -/
def toPrim : JVal → JVal
  | .arr xs => .str (jsToString (.arr xs))
  | .obj _ => .str "[object Object]"
  | v => v

/-- Booleans entering loose comparison are first converted to numbers. -/
def deBool : JVal → JVal
  | .bool b => .num (if b then 1 else 0)
  | v => v

/-- Loose equality on primitives after boolean demotion. -/
def primEqCore : JVal → JVal → Bool
  | .undef, .undef => true
  | .null, .null => true
  | .undef, .null => true
  | .null, .undef => true
  | .num x, .num y => x == y
  | .str x, .str y => x == y
  | .num x, .str s => strToNum s == some x
  | .str s, .num y => strToNum s == some y
  | _, _ => false

/-- JavaScript loose equality `==` as used by json-logic.  Model boundary:
two arrays/objects compare by reference in JS; distinct evaluations yield
distinct references, modelled as `false`. -/
def looseEq (a b : JVal) : Bool :=
  match a, b with
  | .arr _, .arr _ => false
  | .arr _, .obj _ => false
  | .obj _, .arr _ => false
  | .obj _, .obj _ => false
  | _, _ => primEqCore (deBool (toPrim a)) (deBool (toPrim b))

/-- JavaScript strict equality `===` (used by `Array.prototype.indexOf`).
Arrays/objects: reference equality, modelled as `false` (see `looseEq`). -/
def strictEq : JVal → JVal → Bool
  | .undef, .undef => true
  | .null, .null => true
  | .bool x, .bool y => x == y
  | .num x, .num y => x == y
  | .str x, .str y => x == y
  | _, _ => false

/-- JavaScript string comparison: lexicographic over code units. -/
def charListLt : List Char → List Char → Bool
  | _, [] => false
  | [], _ :: _ => true
  | a :: as, b :: bs => if a = b then charListLt as bs else decide (a < b)

/-- JavaScript relational `<`: both operands to primitives; two strings
compare lexicographically, otherwise both convert to numbers and NaN makes
the comparison false. -/
def jsLt (a b : JVal) : Bool :=
  match toPrim a, toPrim b with
  | .str x, .str y => charListLt x.toList y.toList
  | pa, pb =>
      match jsToNumber pa, jsToNumber pb with
      | some x, some y => decide (x < y)
      | _, _ => false

def startsWithL : List Char → List Char → Bool
  | [], _ => true
  | _ :: _, [] => false
  | a :: as, b :: bs => a = b && startsWithL as bs

def containsL (n : List Char) : List Char → Bool
  | [] => startsWithL n []
  | c :: t => startsWithL n (c :: t) || containsL n t

/-- json-logic `in`: `b.indexOf(a) !== -1` guarded by `!b ||
typeof b.indexOf === "undefined"`.  Arrays use strict equality; strings use
substring search on `String(a)`; falsy or indexOf-less values give false. -/
def jsIn (a b : JVal) : Bool :=
  match b with
  | .arr xs => xs.any (strictEq a)
  | .str s => if s = "" then false else containsL (jsToString a).toList s.toList
  | _ => false

/-- Canonical array-index property names: "0", "1", ... with no leading
zeros (JS array indexing `a["01"]` misses). -/
def parseIndex (s : String) : Option Nat :=
  match s.toList with
  | [] => none
  | ['0'] => some 0
  | c :: rest =>
      if c.isDigit ∧ c ≠ '0' ∧ rest.all Char.isDigit then
        some ((c :: rest).foldl (fun acc ch => acc * 10 + (ch.toNat - 48)) 0)
      else none

/-- One step of JavaScript property access `data[prop]` for the shapes the
rule engine meets: own properties of objects, numeric indexing and `length`
of arrays and strings; everything else (prototype methods and the like,
which no rule path mentions) is `undefined`. -/
def getProp (d : JVal) (p : String) : JVal :=
  match d with
  | .obj fields => (alookup fields p).getD .undef
  | .arr xs =>
      if p = "length" then .num xs.length
      else match parseIndex p with
        | some i => xs.getD i .undef
        | none => .undef
  | .str s =>
      if p = "length" then .num s.toList.length
      else match parseIndex p with
        | some i =>
            match s.toList.drop i with
            | [] => .undef
            | c :: _ => .str (String.mk [c])
        | none => .undef
  | _ => (.undef)

/-- The dotted-path walk inside json-logic `var`: before each step a
null/undefined receiver returns the not-found default, and after each step
an undefined result returns it too. -/
def varPath (notFound : JVal) : List String → JVal → JVal
  | [], d => d
  | p :: ps, d =>
      match d with
      | .null => notFound
      | .undef => notFound
      | _ =>
          match getProp d p with
          | .undef => notFound
          | v => varPath notFound ps v

/-- json-logic `var` operation body: an undefined, null or empty-string
path returns the whole data; otherwise the stringified path is split on
"." and walked. -/
def varLookup (a notFound data : JVal) : JVal :=
  match a with
  | .undef => data
  | .null => data
  | .str "" => data
  | _ => varPath notFound ((splitChar '.' (jsToString a).toList []).map String.mk) data

/-- A json-logic rule document.  `lit v` is a non-logic JSON value (a
primitive, or an object that does not have exactly one key); `arr` is a
JSON array of rules (json-logic maps `apply` over arrays); `op name args`
is the one-key object whose key is `name` — when the JSON value under the
key is an array its elements are the arguments, otherwise json-logic wraps
the single value into a one-element argument list. -/
inductive Rule where
  | lit (v : JVal)
  | arr (elems : List Rule)
  | op (name : String) (args : List Rule)

/-- json-logic `missing`: keys are the first evaluated argument if it is an
array, otherwise the whole argument list; a key is collected when the
`var` lookup for it is strictly null or the empty string. -/
def evalMissing (vs : List JVal) (data : JVal) : JVal :=
  let keys := match vs with
    | .arr ks :: _ => ks
    | _ => vs
  .arr (keys.filter fun k =>
    match varLookup k .null data with
    | .null => true
    | .str "" => true
    | _ => false)

/-- The eagerly-evaluated json-logic operations used by this rule catalog,
applied to the already-evaluated argument list (`undefined` filling absent
parameters, as JS call semantics do).  An unrecognized operation name is the
`Unrecognized operation` exception, modelled as `none`. -/
def evalPrim (name : String) (vs : List JVal) (data : JVal) : Option JVal :=
  if name = "var" then
    let a := vs.getD 0 .undef
    let b := vs.getD 1 .undef
    some (varLookup a (match b with | .undef => .null | v => v) data)
  else if name = "missing" then some (evalMissing vs data)
  else if name = "==" then some (.bool (looseEq (vs.getD 0 .undef) (vs.getD 1 .undef)))
  else if name = "!=" then some (.bool (!looseEq (vs.getD 0 .undef) (vs.getD 1 .undef)))
  else if name = "<" then
    let a := vs.getD 0 .undef
    let b := vs.getD 1 .undef
    match vs.getD 2 .undef with
    | .undef => some (.bool (jsLt a b))
    | c => some (.bool (jsLt a b && jsLt b c))
  else if name = "!" then some (.bool (!jlTruthy (vs.getD 0 .undef)))
  else if name = "in" then some (.bool (jsIn (vs.getD 0 .undef) (vs.getD 1 .undef)))
  else none

mutual
/-- jsonLogic.apply: arrays map, non-logic values return themselves, `if`,
`and` and `or` evaluate their arguments lazily, and every other operator
evaluates all arguments first.  `none` models a thrown exception. -/
def applyRule : Rule → JVal → Option JVal
  | .lit v, _ => some v
  | .arr rs, data =>
      match applyList rs data with
      | some vs => some (.arr vs)
      | none => none
  | .op name args, data =>
      if name = "if" then evalIf args data
      else if name = "and" then evalAnd args data
      else if name = "or" then evalOr args data
      else
        match applyList args data with
        | some vs => evalPrim name vs data
        | none => none

def applyList : List Rule → JVal → Option (List JVal)
  | [], _ => some []
  | r :: rs, data =>
      match applyRule r data, applyList rs data with
      | some v, some vs => some (v :: vs)
      | _, _ => none

/-- json-logic `if`: condition/branch pairs scanned in order; a trailing
lone argument is the else branch; falling off the end yields null. -/
def evalIf : List Rule → JVal → Option JVal
  | [], _ => some .null
  | [e], data => applyRule e data
  | c :: t :: rest, data =>
      match applyRule c data with
      | none => none
      | some cv => if jlTruthy cv then applyRule t data else evalIf rest data

/-- json-logic `and`: first falsy argument value, else the last value; with
no arguments the JS loop variable is still undefined. -/
def evalAnd : List Rule → JVal → Option JVal
  | [], _ => some .undef
  | [r], data => applyRule r data
  | r :: s :: rest, data =>
      match applyRule r data with
      | none => none
      | some v => if jlTruthy v then evalAnd (s :: rest) data else some v

/-- json-logic `or`: first truthy argument value, else the last value. -/
def evalOr : List Rule → JVal → Option JVal
  | [], _ => some .undef
  | [r], data => applyRule r data
  | r :: s :: rest, data =>
      match applyRule r data with
      | none => none
      | some v => if jlTruthy v then some v else evalOr (s :: rest) data
end

mutual
/-- Rule expressions over the operator set this deployment supports
(equality, inequality, less-than, in, and/or/not, if, missing, plus `var`
references and literals): expressions whose evaluation cannot throw. -/
inductive ValR : Rule → Prop where
  | lit (v : JVal) : ValR (.lit v)
  | arr (rs : List Rule) (h : ∀ r ∈ rs, ValR r) : ValR (.arr rs)
  | op (name : String) (args : List Rule)
      (hname : name ∈ ["var", "missing", "==", "!=", "<", "!", "in", "and", "or", "if"])
      (hargs : ∀ r ∈ args, ValR r) : ValR (.op name args)
  | ofBool (r : Rule) (h : BoolR r) : ValR r

/-- Boolean-valued rule expressions: the well-formed rule bodies of the
spec (boolean expression trees).  Comparison operators give booleans for
any arguments; and/or give one of their (boolean) argument values; `if`
needs a well-shaped condition/branch chain with boolean branches. -/
inductive BoolR : Rule → Prop where
  | lit (b : Bool) : BoolR (.lit (.bool b))
  | cmp (name : String) (args : List Rule)
      (hname : name ∈ ["==", "!=", "<", "!", "in"])
      (hargs : ∀ r ∈ args, ValR r) : BoolR (.op name args)
  | andor (name : String) (args : List Rule) (hname : name ∈ ["and", "or"])
      (hne : args ≠ []) (hargs : ∀ r ∈ args, BoolR r) : BoolR (.op name args)
  | ite (args : List Rule) (h : IfChain args) : BoolR (.op "if" args)

/-- Condition/branch argument lists of a boolean `if`: pairs of a condition
and a boolean branch, ending in a lone boolean else branch. -/
inductive IfChain : List Rule → Prop where
  | single (e : Rule) (h : BoolR e) : IfChain [e]
  | cons (c t : Rule) (rest : List Rule) (hc : ValR c) (ht : BoolR t)
      (hrest : IfChain rest) : IfChain (c :: t :: rest)
end

/-- Whitespace skipped between JSON tokens. -/
def skipWsL (cs : List Char) : List Char :=
  cs.dropWhile fun c => c = ' ' || c = '\t' || c = '\n' || c = '\r'

/-- JSON string body after the opening quote; supports the escapes
\" \\ \/ \b \f \n \r \t \uXXXX (surrogate pairing not modelled) and rejects
unescaped control characters, as JSON.parse does. -/
def pStringAux : List Char → List Char → Option (String × List Char)
  | [], _ => none
  | '"' :: rest, acc => some (String.mk acc.reverse, rest)
  | '\\' :: rest, acc =>
      match rest with
      | [] => none
      | 'u' :: h1 :: h2 :: h3 :: h4 :: rest2 =>
          match hexVal h1, hexVal h2, hexVal h3, hexVal h4 with
          | some a, some b, some c, some d =>
              pStringAux rest2 (Char.ofNat (((a * 16 + b) * 16 + c) * 16 + d) :: acc)
          | _, _, _, _ => none
      | e :: rest2 =>
          match escChar e with
          | some c => pStringAux rest2 (c :: acc)
          | none => none
  | c :: rest, acc => if c.toNat < 32 then none else pStringAux rest (c :: acc)
where
  hexVal (c : Char) : Option Nat :=
    if c.isDigit then some (c.toNat - 48)
    else if 'a' ≤ c ∧ c ≤ 'f' then some (c.toNat - 87)
    else if 'A' ≤ c ∧ c ≤ 'F' then some (c.toNat - 55)
    else none
  escChar : Char → Option Char
    | '"' => some '"'
    | '\\' => some '\\'
    | '/' => some '/'
    | 'b' => some '\x08'
    | 'f' => some '\x0c'
    | 'n' => some '\n'
    | 'r' => some '\r'
    | 't' => some '\t'
    | _ => none

/-- JSON number literal.  Model boundary: only the integer fragment is
modelled; a fraction or exponent makes the model parser fail where
JSON.parse would produce a non-integer number (no such values occur in
this pipeline's data). -/
def pNumber (cs : List Char) : Option (JVal × List Char) :=
  let (neg, cs1) : Bool × List Char :=
    match cs with
    | '-' :: r => (true, r)
    | _ => (false, cs)
  match cs1 with
  | [] => none
  | c :: _ =>
      if ¬ c.isDigit then none
      else if c == '0' && (match cs1 with | _ :: d :: _ => d.isDigit | _ => false) then none
      else
        let ds := cs1.takeWhile Char.isDigit
        let rest := cs1.dropWhile Char.isDigit
        match rest with
        | p :: _ =>
            if p = '.' ∨ p = 'e' ∨ p = 'E' then none
            else some (numOf neg ds, rest)
        | [] => some (numOf neg ds, rest)
where
  numOf (neg : Bool) (ds : List Char) : JVal :=
    let n : Int := Int.ofNat (ds.foldl (fun acc c => acc * 10 + (c.toNat - 48)) 0)
    .num (if neg then -n else n)

mutual
/-- Model of JSON.parse (one JSON value): fuel-indexed recursive descent;
the fuel passed by `jsonParse` exceeds the longest possible call chain for
the input, so well-formed (integer-fragment) documents never exhaust it. -/
def pVal : Nat → List Char → Option (JVal × List Char)
  | 0, _ => none
  | fuel + 1, cs =>
      match skipWsL cs with
      | 'n' :: 'u' :: 'l' :: 'l' :: rest => some (.null, rest)
      | 't' :: 'r' :: 'u' :: 'e' :: rest => some (.bool true, rest)
      | 'f' :: 'a' :: 'l' :: 's' :: 'e' :: rest => some (.bool false, rest)
      | '"' :: rest => (pStringAux rest []).map fun p => (.str p.1, p.2)
      | '[' :: rest =>
          (match skipWsL rest with
           | ']' :: rest2 => some (.arr [], rest2)
           | cs2 => pElems fuel cs2 [])
      | '{' :: rest =>
          (match skipWsL rest with
           | '}' :: rest2 => some (.obj [], rest2)
           | cs2 => pFields fuel cs2 [])
      | cs2 => pNumber cs2

def pElems : Nat → List Char → List JVal → Option (JVal × List Char)
  | 0, _, _ => none
  | fuel + 1, cs, acc =>
      match pVal fuel cs with
      | none => none
      | some (v, rest) =>
          match skipWsL rest with
          | ',' :: rest2 => pElems fuel rest2 (v :: acc)
          | ']' :: rest2 => some (.arr (v :: acc).reverse, rest2)
          | _ => none

def pFields : Nat → List Char → List (String × JVal) → Option (JVal × List Char)
  | 0, _, _ => none
  | fuel + 1, cs, acc =>
      match skipWsL cs with
      | '"' :: rest =>
          (match pStringAux rest [] with
           | none => none
           | some (k, rest2) =>
               match skipWsL rest2 with
               | ':' :: rest3 =>
                   (match pVal fuel rest3 with
                    | none => none
                    | some (v, rest4) =>
                        match skipWsL rest4 with
                        | ',' :: rest5 => pFields fuel rest5 (objSet acc k v)
                        | '}' :: rest5 => some (.obj (objSet acc k v), rest5)
                        | _ => none)
               | _ => none)
      | _ => none
end

/-- JSON.parse model: parse one value and require only whitespace after it.
`none` models the thrown SyntaxError. -/
def jsonParse (s : String) : Option JVal :=
  match pVal (2 * s.toList.length + 4) s.toList with
  | some (v, rest) => if skipWsL rest = [] then some v else none
  | none => none

/-- `value.charAt(i)`: one-character string, or the empty string out of
range. -/
def jsCharAt (s : String) (i : Nat) : String :=
  match s.toList.drop i with
  | [] => ""
  | c :: _ => String.mk [c]

/-- The field normaliser (the body of the column loop in `parseResult`,
later revision).  The source condition is, with JavaScript precedence
(`&&` binds tighter than `||`):

  (value && typeof value === "string" && value.length > 1
     && value.charAt(0) === "\x7b" && value.charAt(value.length - 1) === "\x7d")
  || (value.charAt(0) === "[" && value.charAt(value.length - 1) === "]")

so for every non-string value the second disjunct calls `.charAt` on a
value that has no such method: a thrown TypeError, modelled as `.error`.
JSON-shaped strings go through JSON.parse, whose SyntaxError on a
malformed string is also modelled as `.error`.  `jsonShaped` is the string
condition exactly as the source writes it (no trimming). -/
def jsonShaped (s : String) : Prop :=
  (s ≠ "" ∧ 1 < s.toList.length ∧ jsCharAt s 0 = "\x7b"
      ∧ jsCharAt s (s.toList.length - 1) = "\x7d")
    ∨ (jsCharAt s 0 = "[" ∧ jsCharAt s (s.toList.length - 1) = "]")

instance (s : String) : Decidable (jsonShaped s) := by
  unfold jsonShaped; exact inferInstance

def normalizeValue (v : JVal) : Except String JVal :=
  match v with
  | .str s =>
      if jsonShaped s then
        match jsonParse s with
        | some parsed => .ok parsed
        | none => .error "SyntaxError: Unexpected token in JSON"
      else .ok (.str s)
  | _ => .error "TypeError: value.charAt is not a function"

/-- One osquery result record as consumed by `parseResult`:
`\x7bname, calendarTime, unixTime, action, columns\x7d`. -/
structure IncomingRecord where
  name : String
  calendarTime : String
  unixTime : Int
  action : Option String
  columns : List (String × JVal)

abbrev Row := List (String × JVal)
abbrev Partitions := List (String × List Row)
abbrev Dataset := List (String × Partitions)

/-- The fresh row literal of the later revision:
`\x7bcalendarTime, unixTime, added: action === "added"\x7d`. -/
def rowInit (r : IncomingRecord) : Row :=
  [("calendarTime", .str r.calendarTime),
   ("unixTime", .num r.unixTime),
   ("added", .bool (r.action == some "added"))]

/-- The column loop of `parseResult` (later revision), generalised over the
row being built: each source column, in insertion order, is normalised and
assigned into the row with `row[key] = ...`.  A normaliser throw aborts the
whole loop. -/
def buildRowAux (row : Row) : List (String × JVal) → Except String Row
  | [] => .ok row
  | kv :: rest =>
      match normalizeValue kv.2 with
      | .error e => .error e
      | .ok nv => buildRowAux (objSet row kv.1 nv) rest

/-- The row construction of the later revision: the fresh reserved-key row
literal, then the column loop — so a column named like a reserved key
overwrites the reserved value. -/
def buildRow (r : IncomingRecord) : Except String Row :=
  buildRowAux (rowInit r) r.columns

/-- `tables[record.name][day].push(row)` including creation of the missing
levels (`tables[record.name] || \x7b\x7d`, `partitions[day] = []`). -/
def datasetAdd (tables : Dataset) (name day : String) (row : Row) : Dataset :=
  let partitions := (alookup tables name).getD []
  let rows := (alookup partitions day).getD []
  objSet tables name (objSet partitions day (rows ++ [row]))

/-- Proleptic Gregorian leap year. -/
def isLeap (y : Nat) : Bool := (y % 4 == 0 && y % 100 != 0) || y % 400 == 0

def daysInYear (y : Nat) : Nat := if isLeap y then 366 else 365

def monthLengths (y : Nat) : List Nat :=
  [31, if isLeap y then 29 else 28, 31, 30, 31, 30, 31, 31, 30, 31, 30, 31]

/-- Walk years forward, consuming whole years of days.  The first argument
is structural fuel: every iteration consumes at least 365 days, so any fuel
of at least `days + 1` makes the exhaustion branch unreachable (see
`findYearAux_spec`). -/
def findYearAux : Nat → Nat → Nat → Nat × Nat
  | 0, y, days => (y, days)
  | fuel + 1, y, days =>
      if days < daysInYear y then (y, days)
      else findYearAux fuel (y + 1) (days - daysInYear y)

/-- Walk years forward from 1970, consuming whole years of days. -/
def findYear (y days : Nat) : Nat × Nat := findYearAux (days + 1) y days

/-- Walk the month lengths, consuming whole months of the day-of-year. -/
def findMonth : List Nat → Nat → Nat → Nat × Nat
  | [], m, doy => (m, doy + 1)
  | len :: rest, m, doy =>
      if doy < len then (m, doy + 1) else findMonth rest (m + 1) (doy - len)

/-- Model of the JavaScript `Date` UTC accessors used by `getDay`
(getUTCFullYear, getUTCMonth + 1, getUTCDate) as a function of whole days
since the Unix epoch.  Model boundary: times before the epoch do not occur
in this pipeline and are not modelled. -/
def utcCivil (days : Nat) : Nat × Nat × Nat :=
  ((findYear 1970 days).1,
   (findMonth (monthLengths (findYear 1970 days).1) 1 (findYear 1970 days).2).1,
   (findMonth (monthLengths (findYear 1970 days).1) 1 (findYear 1970 days).2).2)

/-- `month < 10 ? "0" + month : month` appended as a string. -/
def pad2 (n : Nat) : String := if n < 10 then "0" ++ toString n else toString n

/-- getDay(unixTime): the UTC calendar date of `new Date(unixTime * 1000)`
formatted as year, zero-padded month, zero-padded day. -/
def getDay (unixTime : Int) : String :=
  let days := ((unixTime * 1000).fdiv 86400000).toNat
  let c := utcCivil days
  toString c.1 ++ pad2 c.2.1 ++ pad2 c.2.2

/-- The record loop of `parseResult`: day from `getDay(record.unixTime)`,
bucket `tables[record.name][day]`, then the normalised row is pushed.  A
throw from the column loop propagates: there is no try/catch anywhere in
`parseResult`, so it aborts the whole call. -/
def parseResultAux (tables : Dataset) : List IncomingRecord → Except String Dataset
  | [] => .ok tables
  | r :: rest =>
      match buildRow r with
      | .error e => .error e
      | .ok row => parseResultAux (datasetAdd tables r.name (getDay r.unixTime) row) rest

/-- parseResult(data): partition a batch of records into
tableName → day → rows. -/
def parseResult (data : List IncomingRecord) : Except String Dataset :=
  parseResultAux [] data

/-- One rule group: `\x7btables: [...], rules: \x7bruleName: expr, ...\x7d\x7d`. -/
structure RuleGroup where
  tables : List String
  rules : List (String × Rule)

/-- One parsed rule file: groupName → group, in document order. -/
abbrev RuleDoc := List (String × RuleGroup)

abbrev Catalog := List (String × List (String × Rule))

/-- `Object.keys(group.rules).forEach(ruleName => tableRules[ruleName] = ...)`:
merge a group's rules into an entity-type's rule mapping, later
assignments overwriting. -/
def mergeGroupRules (tableRules groupRules : List (String × Rule)) : List (String × Rule) :=
  groupRules.foldl (fun tr nr => objSet tr nr.1 nr.2) tableRules

/-- The per-group body of getRules: for each table the group targets,
fetch-or-create its rule mapping and merge the group's rules in. -/
def addGroup (rules : Catalog) (g : RuleGroup) : Catalog :=
  g.tables.foldl
    (fun rules tableName =>
      objSet rules tableName (mergeGroupRules ((alookup rules tableName).getD []) g.rules))
    rules

/-- getRules(): fold every group of every rule document, in order, into the
catalog.  The filesystem iteration of the source is modelled by the ordered
list of already-parsed documents. -/
def getRules (docs : List RuleDoc) : Catalog :=
  docs.foldl (fun rules doc => doc.foldl (fun rules g => addGroup rules g.2) rules) []

/-- The match condition of processRules:
`row.added && re.apply(tableRules[ruleName], row)` — plain JavaScript
truthiness on both operands; an evaluator throw (inside the unawaited
async callback) produces no match. -/
def ruleFires (rule : Rule) (row : Row) : Bool :=
  jsTruthy (getProp (.obj row) "added") &&
    match applyRule rule (.obj row) with
    | some v => jsTruthy v
    | none => false

/-- processRules(data): for every table of the dataset that has rules, for
every day bucket, for every row, for every rule of that table, emit the
match (tableName, ruleName, row) when the condition fires.  JavaScript
iterates `Object.keys` and indexes back into the same object; on the
unique-keyed objects the code builds this is exactly iteration over the
entries, as modelled here (the catalog is still consulted by lookup, as in
`RULES[tableName]`). -/
def processRules (rules : Catalog) (data : Dataset) : List (String × String × Row) :=
  data.flatMap fun tp =>
    match alookup rules tp.1 with
    | none => []
    | some tableRules =>
        tp.2.flatMap fun dayp =>
          dayp.2.flatMap fun row =>
            tableRules.filterMap fun rp =>
              if ruleFires rp.2 row then some (tp.1, rp.1, row) else none

/-- Spec-side day counting: days in the years `y0, y0+1, ..., y0+k-1`. -/
def sumYears (y0 : Nat) : Nat → Nat
  | 0 => 0
  | k + 1 => daysInYear y0 + sumYears (y0 + 1) k

/-- Length of month `m` (1-based) of year `y`. -/
def daysInMonth (y m : Nat) : Nat := (monthLengths y).getD (m - 1) 0

/-- Spec-side day counting: days of year `y` before the first of month `m`. -/
def monthDaysBefore (y m : Nat) : Nat := ((monthLengths y).take (m - 1)).sum

/-- Spec-side calendar: days since the Unix epoch of the UTC date (y, m, d),
by plain counting — an independent characterisation of the civil calendar
against which `getDay` is checked. -/
def dateToDays (y m d : Nat) : Nat :=
  sumYears 1970 (y - 1970) + monthDaysBefore y m + (d - 1)

/-- A valid calendar date from 1970 on. -/
def dateValid (y m d : Nat) : Prop :=
  1970 ≤ y ∧ 1 ≤ m ∧ m ≤ 12 ∧ 1 ≤ d ∧ d ≤ daysInMonth y m

/-- The rules of the groups of ONE document targeting `t`, in order. -/
def docTargeting (doc : RuleDoc) (t : String) : List (String × Rule) :=
  doc.flatMap fun g => if t ∈ g.2.tables then g.2.rules else []

/-- Spec-side view of the catalog (the spec wording of 4.1/8): the rules of
every group targeting entity-type `t`, concatenated in load order; a
rule-name lookup takes the last occurrence (last-merged wins). -/
def rulesTargeting (docs : List RuleDoc) (t : String) : List (String × Rule) :=
  docs.flatMap fun doc => docTargeting doc t

/-- Last-wins lookup in the concatenated group rules: the value of the
LAST entry named `n` ("later-loaded same-named rules overwrite earlier
ones"). -/
def lastRule : List (String × Rule) → String → Option Rule
  | [], _ => none
  | p :: rest, n =>
      match lastRule rest n with
      | some r => some r
      | none => if p.1 = n then some p.2 else none

/-- Rule lookup through the catalog: entity-type, then rule name. -/
def lookup2 (c : Catalog) (t n : String) : Option Rule :=
  match alookup c t with
  | none => none
  | some tr => alookup tr n

/-- Explicit-state model of the column loop of the later `parseResult`
revision, for the frame property: the state is the pair
(row, record.columns); each iteration performs exactly one assignment
`row[key] = normalised(record.columns[key])`, so only the first component
is ever written. -/
def columnLoopV2 : List String → Row × Row → Except String (Row × Row)
  | [], st => .ok st
  | k :: ks, (row, cols) =>
      match normalizeValue ((alookup cols k).getD .undef) with
      | .error e => .error e
      | .ok nv => columnLoopV2 ks (objSet row k nv, cols)

/-- The row construction of the earlier revision (lines 141-145 of the
first index.js): `const row = record.columns;` then the three reserved
keys are assigned into that very object — the row IS the record's columns
object, mutated. -/
def rowV1 (r : IncomingRecord) : Row :=
  objSet
    (objSet
      (objSet r.columns "calendarTime" (.str r.calendarTime))
      "unixTime" (.num r.unixTime))
    "added" (.bool (r.action == some "added"))

/-- UTF-8 bytes of a string (crypto.createHash(...).update(secret)). -/
def utf8Bytes (s : String) : List Nat :=
  s.toList.flatMap fun c =>
    let n := c.toNat
    if n < 128 then [n]
    else if n < 2048 then [192 + n / 64, 128 + n % 64]
    else if n < 65536 then [224 + n / 4096, 128 + (n / 64) % 64, 128 + n % 64]
    else [240 + n / 262144, 128 + (n / 4096) % 64, 128 + (n / 64) % 64, 128 + n % 64]

/-- Truncation to a 32-bit word. -/
def w32 (x : Nat) : Nat := x % 4294967296

def rotr32 (n x : Nat) : Nat := w32 ((x >>> n) ||| (x <<< (32 - n)))

def not32 (x : Nat) : Nat := 4294967295 - w32 x

def sha256K : List Nat :=
  [1116352408, 1899447441, 3049323471, 3921009573, 961987163, 1508970993, 2453635748, 2870763221,
   3624381080, 310598401, 607225278, 1426881987, 1925078388, 2162078206, 2614888103, 3248222580,
   3835390401, 4022224774, 264347078, 604807628, 770255983, 1249150122, 1555081692, 1996064986,
   2554220882, 2821834349, 2952996808, 3210313671, 3336571891, 3584528711, 113926993, 338241895,
   666307205, 773529912, 1294757372, 1396182291, 1695183700, 1986661051, 2177026350, 2456956037,
   2730485921, 2820302411, 3259730800, 3345764771, 3516065817, 3600352804, 4094571909, 275423344,
   430227734, 506948616, 659060556, 883997877, 958139571, 1322822218, 1537002063, 1747873779,
   1955562222, 2024104815, 2227730452, 2361852424, 2428436474, 2756734187, 3204031479, 3329325298]

def sha256H0 : List Nat :=
  [1779033703, 3144134277, 1013904242, 2773480762, 1359893119, 2600822924, 528734635, 1541459225]

/-- Big-endian bytes of the 64-bit message length. -/
def be8 (n : Nat) : List Nat :=
  [(n >>> 56) % 256, (n >>> 48) % 256, (n >>> 40) % 256, (n >>> 32) % 256,
   (n >>> 24) % 256, (n >>> 16) % 256, (n >>> 8) % 256, n % 256]

/-- SHA-256 padding: 0x80, zeros to 56 mod 64, 8-byte big-endian bit length. -/
def sha256Pad (msg : List Nat) : List Nat :=
  let padZeros := (119 - msg.length % 64) % 64
  msg ++ [128] ++ List.replicate padZeros 0 ++ be8 (msg.length * 8)

/-- Split the padded message into 64-byte blocks. -/
def toBlocks (l : List Nat) : List (List Nat) :=
  if _h : l = [] then [] else l.take 64 :: toBlocks (l.drop 64)
termination_by l.length
decreasing_by
  have : l.length ≠ 0 := fun hl => _h (List.eq_nil_of_length_eq_zero hl)
  simp [List.length_drop]
  omega

/-- The sixteen big-endian 32-bit words of one block. -/
def wordsOfBlock (block : List Nat) : List Nat :=
  (List.range 16).map fun i =>
    (block.getD (4 * i) 0) * 16777216 + (block.getD (4 * i + 1) 0) * 65536 +
      (block.getD (4 * i + 2) 0) * 256 + block.getD (4 * i + 3) 0

def smallSigma0 (x : Nat) : Nat := rotr32 7 x ^^^ rotr32 18 x ^^^ (x >>> 3)

def smallSigma1 (x : Nat) : Nat := rotr32 17 x ^^^ rotr32 19 x ^^^ (x >>> 10)

def bigSigma0 (x : Nat) : Nat := rotr32 2 x ^^^ rotr32 13 x ^^^ rotr32 22 x

def bigSigma1 (x : Nat) : Nat := rotr32 6 x ^^^ rotr32 11 x ^^^ rotr32 25 x

/-- Message schedule: extend the 16 words to 64. -/
def fullSchedule (w16 : List Nat) : List Nat :=
  (List.range 48).foldl
    (fun w _ =>
      let t := w.length
      w ++ [w32 (smallSigma1 (w.getD (t - 2) 0) + w.getD (t - 7) 0 +
                 smallSigma0 (w.getD (t - 15) 0) + w.getD (t - 16) 0)])
    w16

/-- One round of the SHA-256 compression function. -/
def compressStep (k wt : Nat) (st : List Nat) : List Nat :=
  match st with
  | [a, b, c, d, e, f, g, h] =>
      let t1 := w32 (h + bigSigma1 e + ((e &&& f) ^^^ (not32 e &&& g)) + k + wt)
      let t2 := w32 (bigSigma0 a + ((a &&& b) ^^^ (a &&& c) ^^^ (b &&& c)))
      [w32 (t1 + t2), a, b, c, w32 (d + t1), e, f, g]
  | st => st

def processBlock (h : List Nat) (block : List Nat) : List Nat :=
  let w := fullSchedule (wordsOfBlock block)
  let st := (List.zip sha256K w).foldl (fun st kw => compressStep kw.1 kw.2 st) h
  List.zipWith (fun x y => w32 (x + y)) h st

def hexDigitChar (n : Nat) : Char :=
  "0123456789abcdef".toList.getD n '0'

def toHex32 (n : Nat) : List Char :=
  [hexDigitChar ((n >>> 28) % 16), hexDigitChar ((n >>> 24) % 16),
   hexDigitChar ((n >>> 20) % 16), hexDigitChar ((n >>> 16) % 16),
   hexDigitChar ((n >>> 12) % 16), hexDigitChar ((n >>> 8) % 16),
   hexDigitChar ((n >>> 4) % 16), hexDigitChar (n % 16)]

/-- Model of crypto.createHash("sha256").update(s).digest("hex"): the FIPS
180-4 SHA-256 over the UTF-8 bytes of `s`, in lowercase hex.  (Validated
against the standard test vectors, e.g. sha256Hex "abc" =
"ba7816bf8f01cfea414140de5dae2223b00361a396177a9cb410ff61f20015ad".) -/
def hexCat : List Nat → List Char
  | [] => []
  | x :: xs => toHex32 x ++ hexCat xs

def sha256Hex (s : String) : String :=
  let blocks := toBlocks (sha256Pad (utf8Bytes s))
  String.mk (hexCat (blocks.foldl processBlock sha256H0))

/-- ENROLL_SECRETS from the environment string:
`enrollSecrets.split(",").forEach(secret => ... secret.trim() ...)`. -/
def parseSecrets (env : String) : List String :=
  (splitChar ',' env.toList []).map fun cs => String.mk (trimChars cs)

/-- NODE_KEYS: the SHA-256 hex digest of each configured secret. -/
def nodeKeys (env : String) : List String := (parseSecrets env).map sha256Hex

structure HttpResponse where
  statusCode : Nat
  body : Option String
deriving DecidableEq

def okResp : HttpResponse := ⟨200, none⟩

def errorResp : HttpResponse := ⟨500, none⟩

/-- enroll(body): reject when `enroll_secret` is absent/empty (falsy) or not
in the configured list, else 200 with the JSON body carrying
`node_key = sha256(enroll_secret)`. -/
def enroll (secrets : List String) (enroll_secret : Option String) : HttpResponse :=
  match enroll_secret with
  | none => errorResp
  | some s =>
      if s = "" ∨ ¬ s ∈ secrets then errorResp
      else
        ⟨200, some ("\x7b\"node_key\":\"" ++ sha256Hex s ++ "\",\"node_invalid\":false\x7d")⟩

/-- The node-key gate at the top of log(): `!body.node_key ||
NODE_KEYS.indexOf(body.node_key) < 0` returns the error response; a request
that passes the gate continues into the log-type dispatch (I/O outside
this model). -/
def logGate (keys : List String) (node_key : Option String) : Except HttpResponse Unit :=
  match node_key with
  | none => .error errorResp
  | some k => if k = "" ∨ ¬ k ∈ keys then .error errorResp else .ok ()

/-- Bucket access dataset[t][d]. -/
def bucket (tables : Dataset) (t d : String) : Option (List Row) :=
  match alookup tables t with
  | none => none
  | some parts => alookup parts d

/-- Rows in one entity-type's partitions. -/
def partsCount (parts : Partitions) : Nat := (parts.map fun dp => dp.2.length).sum

/-- Total number of rows over all buckets of the dataset. -/
def rowCount (tables : Dataset) : Nat := (tables.map fun tp => partsCount tp.2).sum

/-- Spec-side selection: the rows of the records that belong in bucket
(t, d), in input order. -/
def selRows (records : List IncomingRecord) (t d : String) : List Row :=
  records.filterMap fun r =>
    if r.name = t ∧ getDay r.unixTime = d then (buildRow r).toOption else none

/-- First-some choice on optional rules (the shape of last-wins merging). -/
def orL (a b : Option Rule) : Option Rule :=
  match a with
  | some r => some r
  | none => b

/-! Shared lemmas about the object model. -/

theorem alookup_objSet {α : Type} (l : List (String × α)) (k : String) (v : α) (key : String) :
    alookup (objSet l k v) key = if key = k then some v else alookup l key := by
  induction l with
  | nil =>
      simp only [objSet, alookup]
      split_ifs <;> simp_all
  | cons p rest ih =>
      obtain ⟨pk, pv⟩ := p
      simp only [objSet]
      rcases eq_or_ne pk k with h1 | h1
      · subst h1
        simp only [if_pos rfl, alookup]
        split_ifs <;>
          first
          | rfl
          | exact absurd ‹pk = key›.symm ‹¬ key = pk›
          | exact absurd ‹key = pk›.symm ‹¬ pk = key›
      · rw [if_neg h1]
        simp only [alookup, ih]
        split_ifs <;>
          first
          | rfl
          | exact absurd (‹pk = key›.trans ‹key = k›) h1

theorem keys_objSet {α : Type} (l : List (String × α)) (k : String) (v : α) (key : String) :
    key ∈ (objSet l k v).map Prod.fst ↔ key = k ∨ key ∈ l.map Prod.fst := by
  induction l with
  | nil => simp [objSet]
  | cons p rest ih =>
      obtain ⟨pk, pv⟩ := p
      simp only [objSet]
      rcases eq_or_ne pk k with h1 | h1
      · subst h1
        rw [if_pos rfl]
        simp only [List.map_cons, List.mem_cons]
        tauto
      · rw [if_neg h1]
        simp only [List.map_cons, List.mem_cons, ih]
        tauto

theorem alookup_eq_none {α : Type} (l : List (String × α)) (key : String) :
    alookup l key = none ↔ key ∉ l.map Prod.fst := by
  induction l with
  | nil => simp [alookup]
  | cons p rest ih =>
      obtain ⟨pk, pv⟩ := p
      simp only [alookup, List.map_cons, List.mem_cons]
      rcases eq_or_ne pk key with h | h
      · subst h; simp
      · simp only [if_neg h, ih]
        constructor
        · intro h2 h3
          rcases h3 with h3 | h3
          · exact h h3.symm
          · exact h2 h3
        · intro h2 h3
          exact h2 (Or.inr h3)

theorem alookup_self_of_nodup {α : Type} (l : List (String × α))
    (hnd : (l.map Prod.fst).Nodup) : ∀ kv ∈ l, alookup l kv.1 = some kv.2 := by
  induction l with
  | nil => simp
  | cons p rest ih =>
      obtain ⟨pk, pv⟩ := p
      simp only [List.map_cons, List.nodup_cons] at hnd
      intro kv hkv
      rcases List.mem_cons.mp hkv with hkv | hkv
      · subst hkv; simp [alookup]
      · have hne : pk ≠ kv.1 := by
          intro h
          exact hnd.1 (h ▸ List.mem_map_of_mem Prod.fst hkv)
        simp only [alookup, if_neg hne]
        exact ih hnd.2 kv hkv

/-! C2: the field normaliser. -/

/-- C2 counterexample: the claim says a number such as 42 "passes through
normalize unchanged (and the normalizer does not raise on such values)";
in the code the `||` disjunct applies `.charAt` to the non-string value,
so normalisation of the numeric column value 42 throws a TypeError instead
of passing the value through. -/
theorem c2_counterexample :
    normalizeValue (.num 42) = .error "TypeError: value.charAt is not a function"
      ∧ normalizeValue (.num 42) ≠ .ok (.num 42) :=
  ⟨rfl, by intro h; rw [show normalizeValue (.num 42)
      = .error "TypeError: value.charAt is not a function" from rfl] at h; cases h⟩

/-- C2 amended: a string value of the shape the source condition actually
tests — no trimming; `\x7b...\x7d` additionally requires length > 1 — is
replaced by the result of JSON.parse when that parse succeeds, and raises
the parse error when it fails; a string not of that shape passes through
unchanged; every non-string value (numbers, booleans, null, nested
structures) raises a TypeError instead of passing through, because the
`&&`/`||` precedence makes the bracket test apply to non-strings. -/
theorem c2_amended :
    (∀ s p, jsonShaped s → jsonParse s = some p → normalizeValue (.str s) = .ok p)
    ∧ (∀ s, jsonShaped s → jsonParse s = none →
        normalizeValue (.str s) = .error "SyntaxError: Unexpected token in JSON")
    ∧ (∀ s, ¬ jsonShaped s → normalizeValue (.str s) = .ok (.str s))
    ∧ (∀ v : JVal, (∀ s, v ≠ .str s) → ∃ e, normalizeValue v = .error e) := by
  refine ⟨?_, ?_, ?_, ?_⟩
  · intro s p hs hp
    simp [normalizeValue, if_pos hs, hp]
  · intro s hs hp
    simp [normalizeValue, if_pos hs, hp]
  · intro s hs
    simp [normalizeValue, if_neg hs]
  · intro v hv
    cases v with
    | str s => exact absurd rfl (hv s)
    | undef => exact ⟨_, rfl⟩
    | null => exact ⟨_, rfl⟩
    | bool b => exact ⟨_, rfl⟩
    | num n => exact ⟨_, rfl⟩
    | arr xs => exact ⟨_, rfl⟩
    | obj fs => exact ⟨_, rfl⟩

/-- C2 witness: the spec's own round-trip examples, obtained from
`c2_amended` at concrete inputs. -/
theorem c2_witness :
    normalizeValue (.str "\x7b\"a\":1\x7d") = .ok (.obj [("a", .num 1)])
      ∧ normalizeValue (.str "not-json") = .ok (.str "not-json")
      ∧ normalizeValue (.str "42") = .ok (.str "42")
      ∧ ∃ e, normalizeValue (.bool true) = .error e :=
  ⟨c2_amended.1 "\x7b\"a\":1\x7d" (.obj [("a", .num 1)]) (by decide) rfl,
   c2_amended.2.2.1 "not-json" (by decide),
   c2_amended.2.2.1 "42" (by decide),
   c2_amended.2.2.2 (.bool true) (fun s h => JVal.noConfusion h)⟩

/-! C3: error containment in the record partitioner. -/

theorem buildRowAux_ok_iff (cols : List (String × JVal)) : ∀ row : Row,
    (∃ out, buildRowAux row cols = .ok out)
      ↔ ∀ kv ∈ cols, ∃ v, normalizeValue kv.2 = .ok v := by
  induction cols with
  | nil => intro row; simp [buildRowAux]
  | cons kv rest ih =>
      intro row
      simp only [buildRowAux]
      cases hn : normalizeValue kv.2 with
      | error e =>
          constructor
          · rintro ⟨out, h⟩; cases h
          · intro h
            obtain ⟨v, hv⟩ := h kv (List.mem_cons_self kv rest)
            rw [hn] at hv; cases hv
      | ok nv =>
          rw [ih (objSet row kv.1 nv)]
          constructor
          · intro h kv2 hkv2
            rcases List.mem_cons.mp hkv2 with h2 | h2
            · exact h2 ▸ ⟨nv, hn⟩
            · exact h kv2 h2
          · intro h kv2 hkv2
            exact h kv2 (List.mem_cons_of_mem kv hkv2)

theorem parseResultAux_ok_iff (records : List IncomingRecord) : ∀ tables : Dataset,
    (∃ d, parseResultAux tables records = .ok d)
      ↔ ∀ r ∈ records, ∀ kv ∈ r.columns, ∃ v, normalizeValue kv.2 = .ok v := by
  induction records with
  | nil => intro tables; simp [parseResultAux]
  | cons r rest ih =>
      intro tables
      simp only [parseResultAux]
      cases hb : buildRow r with
      | error e =>
          constructor
          · rintro ⟨d, h⟩
            exact Except.noConfusion h
          · intro h
            have hr := h r (List.mem_cons_self r rest)
            obtain ⟨out, hout⟩ := (buildRowAux_ok_iff r.columns (rowInit r)).mpr hr
            rw [show buildRow r = buildRowAux (rowInit r) r.columns from rfl, hout] at hb
            cases hb
      | ok row =>
          constructor
          · intro hex r2 hr2
            rcases List.mem_cons.mp hr2 with h2 | h2
            · subst h2
              exact (buildRowAux_ok_iff r2.columns (rowInit r2)).mp ⟨row, hb⟩
            · exact ((ih (datasetAdd tables r.name (getDay r.unixTime) row)).mp hex) r2 h2
          · intro h
            exact (ih (datasetAdd tables r.name (getDay r.unixTime) row)).mpr
              (fun r2 hr2 => h r2 (List.mem_cons_of_mem r hr2))

/-- C3 counterexample: a two-record batch whose second record carries the
JSON-shaped but unparsable column value "\x7bbad\x7d".  The claim says only
that record's inclusion fails and the first record is still placed in its
bucket; in fact `parseResult` has no per-record error handling, the parse
error propagates, and the whole call aborts with no dataset at all. -/
theorem c3_counterexample :
    parseResult
      [⟨"kubernetes_pods", "Thu Jan  1 00:00:00 1970 UTC", 0, some "added", [("a", .str "x")]⟩,
       ⟨"kubernetes_pods", "Fri Jan  2 00:00:00 1970 UTC", 86400, some "added",
        [("b", .str "\x7bbad\x7d")]⟩]
      = .error "SyntaxError: Unexpected token in JSON"
      ∧ ∀ d : Dataset,
          parseResult
            [⟨"kubernetes_pods", "Thu Jan  1 00:00:00 1970 UTC", 0, some "added",
              [("a", .str "x")]⟩,
             ⟨"kubernetes_pods", "Fri Jan  2 00:00:00 1970 UTC", 86400, some "added",
              [("b", .str "\x7bbad\x7d")]⟩] ≠ .ok d := by
  refine ⟨rfl, ?_⟩
  intro d h
  rw [show parseResult
      [⟨"kubernetes_pods", "Thu Jan  1 00:00:00 1970 UTC", 0, some "added", [("a", .str "x")]⟩,
       ⟨"kubernetes_pods", "Fri Jan  2 00:00:00 1970 UTC", 86400, some "added",
        [("b", .str "\x7bbad\x7d")]⟩]
      = .error "SyntaxError: Unexpected token in JSON" from rfl] at h
  cases h

/-- C3 amended: partitioning is all-or-nothing with respect to malformed
serialized-JSON column values: `parseResult` returns a dataset exactly when
every column value of every record normalises without a throw; a single
failing value aborts the whole batch (and an unparsable timestamp does not
abort anything — `getDay` is total).  -/
theorem c3_amended (records : List IncomingRecord) :
    (∃ d, parseResult records = .ok d)
      ↔ ∀ r ∈ records, ∀ kv ∈ r.columns, ∃ v, normalizeValue kv.2 = .ok v :=
  parseResultAux_ok_iff records []

/-- C3 witness for the amended theorem, applied to a concrete clean batch. -/
theorem c3_witness :
    ∃ d, parseResult [⟨"kubernetes_pods", "t", 0, some "added", [("a", .str "x")]⟩] = .ok d :=
  (c3_amended [⟨"kubernetes_pods", "t", 0, some "added", [("a", .str "x")]⟩]).mpr
    (by
      intro r hr kv hkv
      simp only [List.mem_singleton] at hr
      subst hr
      simp only [List.mem_singleton] at hkv
      subst hkv
      exact ⟨.str "x", rfl⟩)

/-! C5: the shape of a normalised row. -/

theorem buildRowAux_notmem (cols : List (String × JVal)) : ∀ (row out : Row) (k : String),
    buildRowAux row cols = .ok out → k ∉ cols.map Prod.fst →
    alookup out k = alookup row k := by
  induction cols with
  | nil =>
      intro row out k h _
      simp only [buildRowAux] at h
      cases h
      rfl
  | cons kv rest ih =>
      intro row out k h hk
      simp only [buildRowAux] at h
      simp only [List.map_cons, List.mem_cons, not_or] at hk
      cases hn : normalizeValue kv.2 with
      | error e => rw [hn] at h; cases h
      | ok nv =>
          rw [hn] at h
          rw [ih (objSet row kv.1 nv) out k h hk.2, alookup_objSet, if_neg hk.1]

theorem buildRowAux_mem (cols : List (String × JVal)) : ∀ (row out : Row),
    buildRowAux row cols = .ok out → (cols.map Prod.fst).Nodup →
    ∀ kv ∈ cols, ∀ v, normalizeValue kv.2 = .ok v → alookup out kv.1 = some v := by
  induction cols with
  | nil => simp
  | cons kv0 rest ih =>
      intro row out h hnd kv hkv v hv
      simp only [buildRowAux] at h
      simp only [List.map_cons, List.nodup_cons] at hnd
      cases hn : normalizeValue kv0.2 with
      | error e => rw [hn] at h; cases h
      | ok nv =>
          rw [hn] at h
          rcases List.mem_cons.mp hkv with h2 | h2
          · subst h2
            have hnv : nv = v := by rw [hn] at hv; cases hv; rfl
            rw [buildRowAux_notmem rest _ _ _ h hnd.1, alookup_objSet, if_pos rfl, hnv]
          · exact ih _ out h hnd.2 kv h2 v hv

/-- C5 counterexample: a record whose columns contain a column literally
named "calendarTime".  The claim says the reserved value from the record
wins; in the code the column loop runs after the reserved keys are set, so
`row[key] = value` overwrites them and the column value wins. -/
theorem c5_counterexample :
    buildRow ⟨"t", "recordCT", 5, some "added", [("calendarTime", .str "colCT")]⟩
      = .ok [("calendarTime", JVal.str "colCT"), ("unixTime", JVal.num 5), ("added", JVal.bool true)]
    ∧ alookup [("calendarTime", JVal.str "colCT"), ("unixTime", JVal.num 5), ("added", JVal.bool true)]
        "calendarTime" ≠ some (.str "recordCT") := by
  refine ⟨rfl, ?_⟩
  intro h
  have h2 : some (JVal.str "colCT") = some (JVal.str "recordCT") := h
  injection h2 with h3
  injection h3 with h4
  exact absurd h4 (by decide)

/-- C5 amended: for a record whose columns all normalise, the row carries
one entry per source column, each holding the normalised column value —
including for a column named "calendarTime"/"unixTime"/"added", where the
COLUMN value (not the reserved record value) wins, because columns are
assigned after the reserved keys; the reserved values survive exactly for
the reserved keys not shadowed by a column, and `added` is true exactly
when action == "added". -/
theorem c5_amended (r : IncomingRecord)
    (hnd : (r.columns.map Prod.fst).Nodup)
    (hok : ∀ kv ∈ r.columns, ∃ v, normalizeValue kv.2 = .ok v) :
    ∃ row, buildRow r = .ok row
      ∧ (∀ kv ∈ r.columns, ∀ v, normalizeValue kv.2 = .ok v → alookup row kv.1 = some v)
      ∧ ("calendarTime" ∉ r.columns.map Prod.fst →
          alookup row "calendarTime" = some (.str r.calendarTime))
      ∧ ("unixTime" ∉ r.columns.map Prod.fst →
          alookup row "unixTime" = some (.num r.unixTime))
      ∧ ("added" ∉ r.columns.map Prod.fst →
          alookup row "added" = some (.bool (r.action == some "added"))) := by
  obtain ⟨row, hrow⟩ := (buildRowAux_ok_iff r.columns (rowInit r)).mpr hok
  refine ⟨row, hrow, buildRowAux_mem r.columns _ _ hrow hnd, ?_, ?_, ?_⟩
  · intro hmem
    rw [buildRowAux_notmem r.columns _ _ _ hrow hmem]
    rfl
  · intro hmem
    rw [buildRowAux_notmem r.columns _ _ _ hrow hmem]
    rfl
  · intro hmem
    rw [buildRowAux_notmem r.columns _ _ _ hrow hmem]
    rfl

/-- C5 witness: `c5_amended` applied to a concrete record, including a
shadowing "calendarTime" column. -/
theorem c5_witness :
    ∃ row,
      buildRow ⟨"t", "ct", 7, some "removed", [("a", .str "v"), ("calendarTime", .str "x")]⟩
        = .ok row
      ∧ (∀ kv ∈ [("a", JVal.str "v"), ("calendarTime", JVal.str "x")],
          ∀ v, normalizeValue kv.2 = .ok v → alookup row kv.1 = some v)
      ∧ ("calendarTime" ∉ [("a", JVal.str "v"), ("calendarTime", JVal.str "x")].map Prod.fst →
          alookup row "calendarTime" = some (.str "ct"))
      ∧ ("unixTime" ∉ [("a", JVal.str "v"), ("calendarTime", JVal.str "x")].map Prod.fst →
          alookup row "unixTime" = some (.num 7))
      ∧ ("added" ∉ [("a", JVal.str "v"), ("calendarTime", JVal.str "x")].map Prod.fst →
          alookup row "added" = some (.bool (some "removed" == some "added"))) :=
  c5_amended ⟨"t", "ct", 7, some "removed", [("a", .str "v"), ("calendarTime", .str "x")]⟩
    (by decide)
    (fun kv hkv => by
      rcases List.mem_cons.mp hkv with h | h
      · subst h; exact ⟨.str "v", rfl⟩
      · rcases List.mem_cons.mp h with h2 | h2
        · subst h2; exact ⟨.str "x", rfl⟩
        · cases h2)

/-! C8: parseResult is pure and does not mutate the input records. -/

theorem columnLoopV2_frame : ∀ (keys : List String) (row cols : Row) (st : Row × Row),
    columnLoopV2 keys (row, cols) = .ok st → st.2 = cols := by
  intro keys
  induction keys with
  | nil =>
      intro row cols st h
      simp only [columnLoopV2] at h
      cases h
      rfl
  | cons k ks ih =>
      intro row cols st h
      simp only [columnLoopV2] at h
      cases hn : normalizeValue ((alookup cols k).getD .undef) with
      | error e => rw [hn] at h; cases h
      | ok nv => rw [hn] at h; exact ih _ _ _ h

theorem columnLoopV2_agrees (cols : Row) : ∀ (rest : List (String × JVal)) (row : Row),
    (∀ kv ∈ rest, alookup cols kv.1 = some kv.2) →
    columnLoopV2 (rest.map Prod.fst) (row, cols)
      = match buildRowAux row rest with
        | .error e => .error e
        | .ok r2 => .ok (r2, cols) := by
  intro rest
  induction rest with
  | nil => intro row _; simp [columnLoopV2, buildRowAux]
  | cons kv rest ih =>
      intro row hall
      simp only [List.map_cons, columnLoopV2, buildRowAux]
      rw [hall kv (List.mem_cons_self kv rest)]
      simp only [Option.getD_some]
      cases hn : normalizeValue kv.2 with
      | error e => rfl
      | ok nv => exact ih (objSet row kv.1 nv) (fun kv2 h2 => hall kv2 (List.mem_cons_of_mem kv h2))

/-- C8: (a) the later revision's column loop, run with the mutable state
(row, record.columns) made explicit, leaves the columns component exactly
as it was — every assignment targets the fresh row, and being a pure Lean
function the model performs no I/O; (b) on unique-keyed columns the loop
computes precisely the row `buildRow`/`parseResult` uses, so `parseResult`
is that pure function of the batch; (c) by contrast the earlier revision's
row construction (`rowV1`, which mutates `record.columns` in place) grows
the record's own columns mapping with the reserved key "added" whenever it
was not already present. -/
theorem c8_parseResult_frame :
    (∀ (keys : List String) (row cols : Row) (st : Row × Row),
        columnLoopV2 keys (row, cols) = .ok st → st.2 = cols)
    ∧ (∀ r : IncomingRecord, (r.columns.map Prod.fst).Nodup →
        columnLoopV2 (r.columns.map Prod.fst) (rowInit r, r.columns)
          = match buildRow r with
            | .error e => .error e
            | .ok row => .ok (row, r.columns))
    ∧ (∀ r : IncomingRecord, "added" ∉ r.columns.map Prod.fst →
        (rowV1 r).map Prod.fst ≠ r.columns.map Prod.fst) := by
  refine ⟨columnLoopV2_frame, ?_, ?_⟩
  · intro r hnd
    exact columnLoopV2_agrees r.columns r.columns (rowInit r) (alookup_self_of_nodup r.columns hnd)
  · intro r hmem heq
    have h1 : "added" ∈ (rowV1 r).map Prod.fst := by
      unfold rowV1
      rw [keys_objSet]
      exact Or.inl rfl
    rw [heq] at h1
    exact hmem h1

/-- C8 witness: the frame statements at a concrete record with one plain
column. -/
theorem c8_witness :
    (columnLoopV2 ["a"] ([], [("a", JVal.str "v")]) = .ok ([("a", JVal.str "v")], [("a", JVal.str "v")]) →
      (([("a", JVal.str "v")], [("a", JVal.str "v")]) : Row × Row).2 = [("a", JVal.str "v")])
    ∧ (columnLoopV2 ([("a", JVal.str "v")].map Prod.fst)
        (rowInit ⟨"t", "ct", 3, some "added", [("a", JVal.str "v")]⟩, [("a", JVal.str "v")])
        = match buildRow ⟨"t", "ct", 3, some "added", [("a", JVal.str "v")]⟩ with
          | .error e => .error e
          | .ok row => .ok (row, [("a", JVal.str "v")]))
    ∧ (rowV1 ⟨"t", "ct", 3, some "added", [("a", JVal.str "v")]⟩).map Prod.fst
        ≠ [("a", JVal.str "v")].map Prod.fst :=
  ⟨fun h => c8_parseResult_frame.1 ["a"] [] [("a", JVal.str "v")] _ h,
   c8_parseResult_frame.2.1 ⟨"t", "ct", 3, some "added", [("a", JVal.str "v")]⟩ (by decide),
   c8_parseResult_frame.2.2 ⟨"t", "ct", 3, some "added", [("a", JVal.str "v")]⟩ (by decide)⟩

/-! C10: enrollment / log authentication round trip. -/

theorem compressStep_length (k wt : Nat) (st : List Nat) :
    (compressStep k wt st).length = st.length := by
  simp only [compressStep]
  split
  · simp_all
  · rfl

theorem sha256_state_length (blocks : List (List Nat)) : ∀ h : List Nat,
    (blocks.foldl processBlock h).length = h.length := by
  induction blocks with
  | nil => intro h; rfl
  | cons b rest ih =>
      intro h
      rw [List.foldl_cons, ih]
      unfold processBlock
      rw [List.length_zipWith]
      have : ∀ (l : List (Nat × Nat)) (st : List Nat),
          (l.foldl (fun st kw => compressStep kw.1 kw.2 st) st).length = st.length := by
        intro l
        induction l with
        | nil => intro st; rfl
        | cons kw r ih2 =>
            intro st
            rw [List.foldl_cons, ih2, compressStep_length]
      rw [this]
      omega

theorem sha256Hex_ne_empty (s : String) : sha256Hex s ≠ "" := by
  intro h
  have hlen := sha256_state_length (toBlocks (sha256Pad (utf8Bytes s))) sha256H0
  obtain ⟨x, xs, hcons⟩ : ∃ x xs,
      (toBlocks (sha256Pad (utf8Bytes s))).foldl processBlock sha256H0 = x :: xs := by
    cases hst : (toBlocks (sha256Pad (utf8Bytes s))).foldl processBlock sha256H0 with
    | nil => rw [hst] at hlen; exact absurd hlen (by decide)
    | cons x xs => exact ⟨x, xs, rfl⟩
  have h8 : hexCat ((toBlocks (sha256Pad (utf8Bytes s))).foldl processBlock sha256H0)
      = ([] : List Char) := congrArg String.data h
  rw [hcons] at h8
  simp only [hexCat, toHex32] at h8
  cases h8

/-- C10 counterexample: with the default empty environment value,
ENROLL_SECRETS is [""], yet an enroll request carrying that very secret is
rejected with the 500 error response — `!body.enroll_secret` treats the
empty-string secret as absent — contradicting the claim that every secret
in the configured list enrolls with statusCode 200. -/
theorem c10_counterexample :
    "" ∈ parseSecrets "" ∧ enroll (parseSecrets "") (some "") = errorResp
      ∧ errorResp.statusCode = 500 :=
  ⟨by decide, rfl, rfl⟩

/-- C10 amended: for every NON-EMPTY secret s in the configured list,
enroll returns 200 with a body carrying node_key = sha256(s); a log request
with exactly that node_key passes the node-key gate; and a log request
whose node_key is absent, empty, or not the digest of any configured
secret is rejected with the error response. -/
theorem c10_amended (env s : String) (hs : s ∈ parseSecrets env) (hne : s ≠ "") :
    enroll (parseSecrets env) (some s)
      = ⟨200, some ("\x7b\"node_key\":\"" ++ sha256Hex s ++ "\",\"node_invalid\":false\x7d")⟩
    ∧ logGate (nodeKeys env) (some (sha256Hex s)) = .ok ()
    ∧ logGate (nodeKeys env) none = .error errorResp
    ∧ ∀ k : String, (∀ t ∈ parseSecrets env, k ≠ sha256Hex t) →
        logGate (nodeKeys env) (some k) = .error errorResp := by
  refine ⟨?_, ?_, rfl, ?_⟩
  · simp only [enroll]
    rw [if_neg]
    push_neg
    exact ⟨hne, hs⟩
  · simp only [logGate]
    rw [if_neg]
    push_neg
    exact ⟨sha256Hex_ne_empty s, List.mem_map_of_mem sha256Hex hs⟩
  · intro k hk
    simp only [logGate]
    rcases eq_or_ne k "" with hke | hke
    · rw [if_pos (Or.inl hke)]
    · rw [if_pos]
      right
      intro hmem
      obtain ⟨t, ht, htk⟩ := List.mem_map.mp hmem
      exact hk t ht htk.symm

/-- C10 witness: the round trip at the concrete configuration
"alpha,beta" with secret "alpha". -/
theorem c10_witness :
    enroll (parseSecrets "alpha,beta") (some "alpha")
      = ⟨200, some ("\x7b\"node_key\":\"" ++ sha256Hex "alpha" ++ "\",\"node_invalid\":false\x7d")⟩
    ∧ logGate (nodeKeys "alpha,beta") (some (sha256Hex "alpha")) = .ok ()
    ∧ logGate (nodeKeys "alpha,beta") none = .error errorResp
    ∧ ∀ k : String, (∀ t ∈ parseSecrets "alpha,beta", k ≠ sha256Hex t) →
        logGate (nodeKeys "alpha,beta") (some k) = .error errorResp :=
  c10_amended "alpha,beta" "alpha" (by decide) (by decide)

/-! C1: the rule evaluator emits exactly the matching triples. -/

theorem ruleFires_iff (rule : Rule) (row : Row) :
    ruleFires rule row = true
      ↔ jsTruthy (getProp (.obj row) "added") = true
        ∧ ∃ v, applyRule rule (.obj row) = some v ∧ jsTruthy v = true := by
  unfold ruleFires
  rw [Bool.and_eq_true]
  cases happly : applyRule rule (.obj row) with
  | none =>
      simp only []
      constructor
      · rintro ⟨h1, h2⟩; cases h2
      · rintro ⟨h1, v, hv, htv⟩; cases hv
  | some v =>
      constructor
      · rintro ⟨h1, h2⟩; exact ⟨h1, v, rfl, h2⟩
      · rintro ⟨h1, w, hw, htw⟩
        refine ⟨h1, ?_⟩
        injection hw with hw2
        rw [hw2]
        exact htw

/-- C1: a triple (entity-type, rule-name, row) is emitted by processRules
iff the entity-type is an entry of the dataset AND a key of the catalog,
the row lies in one of that entity-type's day buckets, the row's `added`
field is (JS-)truthy, and applying the rule-name's expression to the row
returns (without throwing) a truthy result.  In particular rows with
added = false never match, and an entity-type absent from the catalog
contributes nothing — and no error, the function being total. -/
theorem c1_processRules_iff (rules : Catalog) (data : Dataset) (t n : String) (row : Row) :
    (t, n, row) ∈ processRules rules data
      ↔ ∃ parts trules day rows rule,
          (t, parts) ∈ data
          ∧ alookup rules t = some trules
          ∧ (day, rows) ∈ parts
          ∧ row ∈ rows
          ∧ (n, rule) ∈ trules
          ∧ jsTruthy (getProp (.obj row) "added") = true
          ∧ ∃ v, applyRule rule (.obj row) = some v ∧ jsTruthy v = true := by
  unfold processRules
  rw [List.mem_flatMap]
  constructor
  · rintro ⟨⟨t1, parts⟩, htp, hmem⟩
    cases halo : alookup rules t1 with
    | none => rw [halo] at hmem; cases hmem
    | some trules =>
        rw [halo] at hmem
        rw [List.mem_flatMap] at hmem
        obtain ⟨⟨day, rows⟩, hdayp, hmem2⟩ := hmem
        rw [List.mem_flatMap] at hmem2
        obtain ⟨row2, hrow2, hmem3⟩ := hmem2
        rw [List.mem_filterMap] at hmem3
        obtain ⟨⟨n1, rule⟩, hrp, hif⟩ := hmem3
        by_cases hf : ruleFires rule row2
        · rw [if_pos hf] at hif
          simp only [Option.some.injEq, Prod.mk.injEq] at hif
          obtain ⟨h1, h2, h3⟩ := hif
          obtain ⟨hadded, v, happ, htv⟩ := (ruleFires_iff rule row2).mp hf
          rw [← h1, ← h2, ← h3]
          exact ⟨parts, trules, day, rows, rule, htp, halo, hdayp, hrow2, hrp,
            hadded, v, happ, htv⟩
        · rw [if_neg hf] at hif; cases hif
  · rintro ⟨parts, trules, day, rows, rule, hdata, halo, hparts, hrow, hrule, hadded, v, happ, htv⟩
    refine ⟨(t, parts), hdata, ?_⟩
    rw [halo, List.mem_flatMap]
    refine ⟨(day, rows), hparts, ?_⟩
    rw [List.mem_flatMap]
    refine ⟨row, hrow, ?_⟩
    rw [List.mem_filterMap]
    refine ⟨(n, rule), hrule, ?_⟩
    rw [if_pos ((ruleFires_iff rule row).mpr ⟨hadded, v, happ, htv⟩)]

/-! C6: evaluation of well-formed rules is total and boolean. -/

theorem applyList_isSome_of (d : JVal) : ∀ rs : List Rule,
    (∀ r ∈ rs, (applyRule r d).isSome) → (applyList rs d).isSome := by
  intro rs
  induction rs with
  | nil => intro _; simp [applyList]
  | cons r rest ih =>
      intro h
      obtain ⟨v, hv⟩ := Option.isSome_iff_exists.mp (h r (List.mem_cons_self r rest))
      obtain ⟨vs, hvs⟩ :=
        Option.isSome_iff_exists.mp (ih (fun r2 h2 => h r2 (List.mem_cons_of_mem r h2)))
      simp only [applyList]
      rw [hv, hvs]
      rfl

theorem evalIf_isSome_of (d : JVal) : ∀ args : List Rule,
    (∀ r ∈ args, (applyRule r d).isSome) → (evalIf args d).isSome
  | [], _ => by simp [evalIf]
  | [e], h => by
      simp only [evalIf]
      exact h e (List.mem_singleton.mpr rfl)
  | c :: t :: rest, h => by
      obtain ⟨cv, hcv⟩ :=
        Option.isSome_iff_exists.mp (h c (List.mem_cons_self c (t :: rest)))
      simp only [evalIf]
      rw [hcv]
      show (if jlTruthy cv = true then applyRule t d else evalIf rest d).isSome = true
      by_cases htr : jlTruthy cv
      · rw [if_pos htr]
        exact h t (List.mem_cons_of_mem c (List.mem_cons_self t rest))
      · rw [if_neg htr]
        exact evalIf_isSome_of d rest
          (fun r hr => h r (List.mem_cons_of_mem c (List.mem_cons_of_mem t hr)))

theorem evalAnd_isSome_of (d : JVal) : ∀ args : List Rule,
    (∀ r ∈ args, (applyRule r d).isSome) → (evalAnd args d).isSome
  | [], _ => by simp [evalAnd]
  | [r], h => by
      simp only [evalAnd]
      exact h r (List.mem_singleton.mpr rfl)
  | r :: s :: rest, h => by
      obtain ⟨v, hv⟩ :=
        Option.isSome_iff_exists.mp (h r (List.mem_cons_self r (s :: rest)))
      simp only [evalAnd]
      rw [hv]
      show (if jlTruthy v = true then evalAnd (s :: rest) d else some v).isSome = true
      by_cases htr : jlTruthy v
      · rw [if_pos htr]
        exact evalAnd_isSome_of d (s :: rest) (fun r2 h2 => h r2 (List.mem_cons_of_mem r h2))
      · rw [if_neg htr]
        rfl

theorem evalOr_isSome_of (d : JVal) : ∀ args : List Rule,
    (∀ r ∈ args, (applyRule r d).isSome) → (evalOr args d).isSome
  | [], _ => by simp [evalOr]
  | [r], h => by
      simp only [evalOr]
      exact h r (List.mem_singleton.mpr rfl)
  | r :: s :: rest, h => by
      obtain ⟨v, hv⟩ :=
        Option.isSome_iff_exists.mp (h r (List.mem_cons_self r (s :: rest)))
      simp only [evalOr]
      rw [hv]
      show (if jlTruthy v = true then some v else evalOr (s :: rest) d).isSome = true
      by_cases htr : jlTruthy v
      · rw [if_pos htr]
        rfl
      · rw [if_neg htr]
        exact evalOr_isSome_of d (s :: rest) (fun r2 h2 => h r2 (List.mem_cons_of_mem r h2))

theorem evalPrim_lt_eq (vs : List JVal) (d : JVal) :
    evalPrim "<" vs d
      = (match vs.getD 2 JVal.undef with
         | JVal.undef => some (JVal.bool (jsLt (vs.getD 0 JVal.undef) (vs.getD 1 JVal.undef)))
         | c => some (JVal.bool (jsLt (vs.getD 0 JVal.undef) (vs.getD 1 JVal.undef)
             && jsLt (vs.getD 1 JVal.undef) c))) := rfl

theorem evalPrim_isSome (name : String)
    (hname : name ∈ ["var", "missing", "==", "!=", "<", "!", "in"])
    (vs : List JVal) (d : JVal) : (evalPrim name vs d).isSome := by
  fin_cases hname <;>
    first
    | rfl
    | (rw [evalPrim_lt_eq]; cases vs.getD 2 JVal.undef <;> rfl)

theorem evalPrim_cmp_bool (name : String) (hname : name ∈ ["==", "!=", "<", "!", "in"])
    (vs : List JVal) (d : JVal) : ∃ b, evalPrim name vs d = some (.bool b) := by
  fin_cases hname <;>
    first
    | exact ⟨_, rfl⟩
    | (rw [evalPrim_lt_eq]; cases vs.getD 2 JVal.undef <;> exact ⟨_, rfl⟩)

theorem evalAnd_bool_of (d : JVal) : ∀ args : List Rule, args ≠ [] →
    (∀ r ∈ args, ∃ b, applyRule r d = some (.bool b)) →
    ∃ b, evalAnd args d = some (.bool b)
  | [], hne, _ => absurd rfl hne
  | [r], _, h => by
      simp only [evalAnd]
      exact h r (List.mem_singleton.mpr rfl)
  | r :: s :: rest, _, h => by
      obtain ⟨b, hb⟩ := h r (List.mem_cons_self r (s :: rest))
      simp only [evalAnd]
      rw [hb]
      show ∃ b2, (if jlTruthy (JVal.bool b) = true then evalAnd (s :: rest) d
        else some (JVal.bool b)) = some (JVal.bool b2)
      by_cases htr : jlTruthy (JVal.bool b)
      · rw [if_pos htr]
        exact evalAnd_bool_of d (s :: rest) (by simp)
          (fun r2 h2 => h r2 (List.mem_cons_of_mem r h2))
      · rw [if_neg htr]
        exact ⟨b, rfl⟩

theorem evalOr_bool_of (d : JVal) : ∀ args : List Rule, args ≠ [] →
    (∀ r ∈ args, ∃ b, applyRule r d = some (.bool b)) →
    ∃ b, evalOr args d = some (.bool b)
  | [], hne, _ => absurd rfl hne
  | [r], _, h => by
      simp only [evalOr]
      exact h r (List.mem_singleton.mpr rfl)
  | r :: s :: rest, _, h => by
      obtain ⟨b, hb⟩ := h r (List.mem_cons_self r (s :: rest))
      simp only [evalOr]
      rw [hb]
      show ∃ b2, (if jlTruthy (JVal.bool b) = true then some (JVal.bool b)
        else evalOr (s :: rest) d) = some (JVal.bool b2)
      by_cases htr : jlTruthy (JVal.bool b)
      · rw [if_pos htr]
        exact ⟨b, rfl⟩
      · rw [if_neg htr]
        exact evalOr_bool_of d (s :: rest) (by simp)
          (fun r2 h2 => h r2 (List.mem_cons_of_mem r h2))

theorem applyRule_op_if (args : List Rule) (d : JVal) :
    applyRule (.op "if" args) d = evalIf args d := by
  simp [applyRule]

theorem applyRule_op_and (args : List Rule) (d : JVal) :
    applyRule (.op "and" args) d = evalAnd args d := by
  simp [applyRule]

theorem applyRule_op_or (args : List Rule) (d : JVal) :
    applyRule (.op "or" args) d = evalOr args d := by
  simp [applyRule]

theorem applyRule_op_prim (name : String) (hni : name ≠ "if") (hna : name ≠ "and")
    (hno : name ≠ "or") (args : List Rule) (d : JVal) :
    applyRule (.op name args) d
      = match applyList args d with
        | some vs => evalPrim name vs d
        | none => none := by
  simp only [applyRule]
  rw [if_neg hni, if_neg hna, if_neg hno]

mutual
theorem valR_isSome {r : Rule} : ValR r → ∀ d : JVal, (applyRule r d).isSome
  | .lit v, d => by simp [applyRule]
  | .arr rs hall, d => by
      obtain ⟨vs, hvs⟩ := Option.isSome_iff_exists.mp
        (applyList_isSome_of d rs (fun r2 hr => valR_isSome (hall r2 hr) d))
      simp only [applyRule]
      rw [hvs]
      rfl
  | .op name args hname hargs, d => by
      have hIH : ∀ r2 ∈ args, (applyRule r2 d).isSome :=
        fun r2 hr => valR_isSome (hargs r2 hr) d
      fin_cases hname <;>
        first
        | (rw [applyRule_op_if]; exact evalIf_isSome_of d args hIH)
        | (rw [applyRule_op_and]; exact evalAnd_isSome_of d args hIH)
        | (rw [applyRule_op_or]; exact evalOr_isSome_of d args hIH)
        | (rw [applyRule_op_prim _ (by decide) (by decide) (by decide)]
           obtain ⟨vs, hvs⟩ := Option.isSome_iff_exists.mp (applyList_isSome_of d args hIH)
           rw [hvs]
           exact evalPrim_isSome _ (by decide) vs d)
  | .ofBool r hb, d => by
      obtain ⟨b, hbr⟩ := boolR_bool hb d
      rw [hbr]
      rfl
termination_by h d => (sizeOf r, 1)
decreasing_by
  all_goals simp_wf
  all_goals
    first
    | exact Prod.Lex.right _ (by omega)
    | refine Prod.Lex.left _ _ ?_
      (first
        | (have h9 := List.sizeOf_lt_of_mem hr; simp at h9 ⊢; omega)
        | (simp; omega)
        | omega)

theorem boolR_bool {r : Rule} : BoolR r → ∀ d : JVal, ∃ b, applyRule r d = some (.bool b)
  | .lit b, d => ⟨b, by simp [applyRule]⟩
  | .cmp name args hname hargs, d => by
      have hIH : ∀ r2 ∈ args, (applyRule r2 d).isSome :=
        fun r2 hr => valR_isSome (hargs r2 hr) d
      obtain ⟨vs, hvs⟩ := Option.isSome_iff_exists.mp (applyList_isSome_of d args hIH)
      fin_cases hname <;>
        (rw [applyRule_op_prim _ (by decide) (by decide) (by decide), hvs]
         exact evalPrim_cmp_bool _ (by decide) vs d)
  | .andor name args hname hne hargs, d => by
      have hIH : ∀ r2 ∈ args, ∃ b, applyRule r2 d = some (.bool b) :=
        fun r2 hr => boolR_bool (hargs r2 hr) d
      fin_cases hname
      · rw [applyRule_op_and]
        exact evalAnd_bool_of d args hne hIH
      · rw [applyRule_op_or]
        exact evalOr_bool_of d args hne hIH
  | .ite args hch, d => by
      rw [applyRule_op_if]
      exact ifChain_bool hch d
termination_by h d => (sizeOf r, 0)
decreasing_by
  all_goals simp_wf
  all_goals
    first
    | exact Prod.Lex.right _ (by omega)
    | refine Prod.Lex.left _ _ ?_
      (first
        | (have h9 := List.sizeOf_lt_of_mem hr; simp at h9 ⊢; omega)
        | (simp; omega)
        | omega)

theorem ifChain_bool {args : List Rule} : IfChain args → ∀ d : JVal,
    ∃ b, evalIf args d = some (.bool b)
  | .single e hb, d => by
      simp only [evalIf]
      exact boolR_bool hb d
  | .cons c t rest hc ht hrest, d => by
      obtain ⟨cv, hcv⟩ := Option.isSome_iff_exists.mp (valR_isSome hc d)
      simp only [evalIf]
      rw [hcv]
      show ∃ b, (if jlTruthy cv = true then applyRule t d else evalIf rest d)
        = some (.bool b)
      by_cases htr : jlTruthy cv
      · rw [if_pos htr]
        exact boolR_bool ht d
      · rw [if_neg htr]
        exact ifChain_bool hrest d
termination_by h d => (sizeOf args, 0)
decreasing_by
  all_goals simp_wf
  all_goals
    first
    | exact Prod.Lex.right _ (by omega)
    | refine Prod.Lex.left _ _ ?_
      (first
        | (have h9 := List.sizeOf_lt_of_mem hr; simp at h9 ⊢; omega)
        | (simp; omega)
        | omega)
end

/-- C6: evaluating a well-formed (boolean-typed, over the supported
operator set) rule expression against any row whatsoever — the empty row,
a row missing every referenced field, a row whose referenced field is the
empty string, even a non-object — never throws (`some`, not `none`) and
returns a boolean, absent dotted-path lookups resolving to the engine's
null sentinel inside `varLookup`. -/
theorem c6_wellformed_total (r : Rule) (h : BoolR r) :
    ∀ row : JVal, ∃ b, applyRule r row = some (JVal.bool b) :=
  fun row => boolR_bool h row

/-- C6 witness: the deployment's privileged-container rule and the
missing-resource-limits rule are well-formed, and `c6_wellformed_total`
applies to them at the empty row and at the empty-string row. -/
theorem c6_witness :
    (∃ b, applyRule (.op "==" [.op "var" [.lit (.str "privileged")], .lit (.str "1")])
        (.obj []) = some (JVal.bool b))
    ∧ (∃ b, applyRule
        (.op "if" [.op "missing" [.lit (.str "resource_limits.cpu"),
                                  .lit (.str "resource_limits.memory")],
                   .lit (.bool true), .lit (.bool false)])
        (.str "") = some (JVal.bool b)) := by
  have hval : ∀ s : String, ValR (Rule.op "var" [.lit (.str s)]) := by
    intro s
    refine ValR.op "var" [.lit (.str s)] (by decide) ?_
    intro r3 hr3
    rcases List.mem_cons.mp hr3 with h2 | h2
    · subst h2; exact ValR.lit _
    · cases h2
  have hb1 : BoolR (.op "==" [.op "var" [.lit (.str "privileged")], .lit (.str "1")]) := by
    refine BoolR.cmp "==" _ (by decide) ?_
    intro r2 hr
    rcases List.mem_cons.mp hr with h1 | h1
    · subst h1; exact hval "privileged"
    · rcases List.mem_cons.mp h1 with h2 | h2
      · subst h2; exact ValR.lit _
      · cases h2
  have hb2 : BoolR (.op "if" [.op "missing" [.lit (.str "resource_limits.cpu"),
      .lit (.str "resource_limits.memory")], .lit (.bool true), .lit (.bool false)]) := by
    refine BoolR.ite _ ?_
    refine IfChain.cons _ _ _ ?_ (BoolR.lit true) (IfChain.single _ (BoolR.lit false))
    refine ValR.op "missing" _ (by decide) ?_
    intro r3 hr3
    rcases List.mem_cons.mp hr3 with h2 | h2
    · subst h2; exact ValR.lit _
    · rcases List.mem_cons.mp h2 with h3 | h3
      · subst h3; exact ValR.lit _
      · cases h3
  exact ⟨c6_wellformed_total _ hb1 (.obj []), c6_wellformed_total _ hb2 (.str "")⟩

/-! C7: the rule catalog loader. -/

theorem orL_some (r : Rule) (b : Option Rule) : orL (some r) b = some r := rfl

theorem orL_none (b : Option Rule) : orL none b = b := rfl

theorem orL_none_right (a : Option Rule) : orL a none = a := by
  cases a <;> rfl

theorem lastRule_cons (p : String × Rule) (rest : List (String × Rule)) (n : String) :
    lastRule (p :: rest) n
      = orL (lastRule rest n) (if p.1 = n then some p.2 else none) := by
  simp only [lastRule, orL]

theorem lastRule_append (l1 l2 : List (String × Rule)) (n : String) :
    lastRule (l1 ++ l2) n = orL (lastRule l2 n) (lastRule l1 n) := by
  induction l1 with
  | nil => simp [lastRule, orL_none_right]
  | cons p rest ih =>
      rw [List.cons_append, lastRule_cons, ih, lastRule_cons]
      cases lastRule l2 n <;> simp [orL]

theorem lastRule_ne_none_iff (l : List (String × Rule)) (n : String) :
    lastRule l n ≠ none ↔ n ∈ l.map Prod.fst := by
  induction l with
  | nil => simp [lastRule]
  | cons p rest ih =>
      rw [lastRule_cons]
      cases h : lastRule rest n with
      | some r =>
          simp only [orL_some]
          have : n ∈ rest.map Prod.fst := ih.mp (by rw [h]; exact fun hh => Option.noConfusion hh)
          simp [this]
      | none =>
          simp only [orL_none]
          rw [h] at ih
          simp only [List.map_cons, List.mem_cons]
          rcases eq_or_ne p.1 n with h2 | h2
          · simp [h2]
          · rw [if_neg h2]
            simp only [ih]
            constructor
            · intro hh; exact Or.inr hh
            · rintro (hh | hh)
              · exact absurd hh.symm h2
              · exact hh

theorem mergeGroupRules_lookup (new : List (String × Rule)) :
    ∀ (tr : List (String × Rule)) (n : String),
    alookup (mergeGroupRules tr new) n = orL (lastRule new n) (alookup tr n) := by
  induction new with
  | nil => intro tr n; rfl
  | cons p rest ih =>
      intro tr n
      show alookup (mergeGroupRules (objSet tr p.1 p.2) rest) n = _
      rw [ih, lastRule_cons, alookup_objSet]
      cases hl : lastRule rest n with
      | some r => rfl
      | none =>
          simp only [orL_none, orL]
          rcases eq_or_ne p.1 n with h | h
          · rw [if_pos h, if_pos h.symm]
          · rw [if_neg h, if_neg (fun hh => h hh.symm)]

theorem lookup2_base (rules : Catalog) (t n : String) :
    alookup ((alookup rules t).getD []) n = lookup2 rules t n := by
  cases h : alookup rules t <;> simp [lookup2, h, alookup]

theorem tablesFold_lookup2 (grules : List (String × Rule)) : ∀ (ts : List String)
    (rules : Catalog) (t n : String),
    lookup2 (ts.foldl (fun rules tableName =>
        objSet rules tableName
          (mergeGroupRules ((alookup rules tableName).getD []) grules)) rules) t n
      = if t ∈ ts
        then orL (lastRule grules n) (lookup2 rules t n)
        else lookup2 rules t n := by
  intro ts
  induction ts with
  | nil => intro rules t n; simp
  | cons t0 ts ih =>
      intro rules t n
      rw [List.foldl_cons, ih]
      have hstep : ∀ m : String,
          lookup2 (objSet rules t0
            (mergeGroupRules ((alookup rules t0).getD []) grules)) m n
          = if m = t0 then orL (lastRule grules n) (lookup2 rules t0 n)
            else lookup2 rules m n := by
        intro m
        unfold lookup2
        rw [alookup_objSet]
        rcases eq_or_ne m t0 with h | h
        · rw [if_pos h, if_pos h]
          show alookup (mergeGroupRules ((alookup rules t0).getD []) grules) n = _
          rw [mergeGroupRules_lookup, lookup2_base]
          rfl
        · rw [if_neg h, if_neg h]
      by_cases h1 : t ∈ ts
      · rw [if_pos h1, if_pos (List.mem_cons_of_mem t0 h1), hstep t]
        rcases eq_or_ne t t0 with h2 | h2
        · rw [if_pos h2]
          subst h2
          cases lastRule grules n <;> simp [orL]
        · rw [if_neg h2]
      · rw [if_neg h1, hstep t]
        rcases eq_or_ne t t0 with h2 | h2
        · rw [if_pos h2]
          subst h2
          rw [if_pos (List.mem_cons_self t ts)]
        · rw [if_neg h2, if_neg (by
            intro hmem
            rcases List.mem_cons.mp hmem with h3 | h3
            · exact h2 h3
            · exact h1 h3)]

theorem addGroup_lookup2 (rules : Catalog) (g : RuleGroup) (t n : String) :
    lookup2 (addGroup rules g) t n
      = if t ∈ g.tables
        then orL (lastRule g.rules n) (lookup2 rules t n)
        else lookup2 rules t n :=
  tablesFold_lookup2 g.rules g.tables rules t n

theorem docFold_lookup2 (doc : RuleDoc) : ∀ (rules : Catalog) (t n : String),
    lookup2 (doc.foldl (fun rules g => addGroup rules g.2) rules) t n
      = orL (lastRule (docTargeting doc t) n) (lookup2 rules t n) := by
  induction doc with
  | nil =>
      intro rules t n
      simp [docTargeting, lastRule, orL]
  | cons g doc ih =>
      intro rules t n
      rw [List.foldl_cons, ih]
      have hdt : docTargeting (g :: doc) t
          = (if t ∈ g.2.tables then g.2.rules else []) ++ docTargeting doc t := by
        simp [docTargeting]
      rw [hdt, lastRule_append, addGroup_lookup2]
      by_cases hmem : t ∈ g.2.tables
      · rw [if_pos hmem, if_pos hmem]
        cases lastRule (docTargeting doc t) n <;> cases lastRule g.2.rules n <;> simp [orL]
      · rw [if_neg hmem, if_neg hmem]
        cases lastRule (docTargeting doc t) n <;> simp [orL, lastRule]

theorem getRulesFrom_lookup2 : ∀ (docs : List RuleDoc) (rules : Catalog) (t n : String),
    lookup2 (docs.foldl
        (fun rules doc => doc.foldl (fun rules g => addGroup rules g.2) rules) rules) t n
      = orL (lastRule (rulesTargeting docs t) n) (lookup2 rules t n) := by
  intro docs
  induction docs with
  | nil =>
      intro rules t n
      simp [rulesTargeting, lastRule, orL]
  | cons doc docs ih =>
      intro rules t n
      rw [List.foldl_cons, ih, docFold_lookup2]
      have hrt : rulesTargeting (doc :: docs) t
          = docTargeting doc t ++ rulesTargeting docs t := by
        simp [rulesTargeting]
      rw [hrt, lastRule_append]
      cases lastRule (rulesTargeting docs t) n <;>
        cases lastRule (docTargeting doc t) n <;> simp [orL]

theorem tablesFold_keys (grules : List (String × Rule)) : ∀ (ts : List String)
    (rules : Catalog) (t : String),
    (alookup (ts.foldl (fun rules tableName =>
        objSet rules tableName
          (mergeGroupRules ((alookup rules tableName).getD []) grules)) rules) t ≠ none)
      ↔ t ∈ ts ∨ alookup rules t ≠ none := by
  intro ts
  induction ts with
  | nil => intro rules t; simp
  | cons t0 ts ih =>
      intro rules t
      rw [List.foldl_cons, ih]
      rw [alookup_objSet]
      rcases eq_or_ne t t0 with h | h
      · subst h
        simp [List.mem_cons]
      · rw [if_neg h]
        simp only [List.mem_cons]
        constructor
        · rintro (hh | hh)
          · exact Or.inl (Or.inr hh)
          · exact Or.inr hh
        · rintro (hh | hh)
          · rcases hh with hh | hh
            · exact absurd hh h
            · exact Or.inl hh
          · exact Or.inr hh

theorem addGroup_keys (rules : Catalog) (g : RuleGroup) (t : String) :
    (alookup (addGroup rules g) t ≠ none) ↔ t ∈ g.tables ∨ alookup rules t ≠ none :=
  tablesFold_keys g.rules g.tables rules t

theorem docFold_keys (doc : RuleDoc) : ∀ (rules : Catalog) (t : String),
    (alookup (doc.foldl (fun rules g => addGroup rules g.2) rules) t ≠ none)
      ↔ (∃ g ∈ doc, t ∈ g.2.tables) ∨ alookup rules t ≠ none := by
  induction doc with
  | nil => intro rules t; simp
  | cons g doc ih =>
      intro rules t
      rw [List.foldl_cons, ih, addGroup_keys]
      constructor
      · rintro (⟨g2, hg2, hmem⟩ | hh)
        · exact Or.inl ⟨g2, List.mem_cons_of_mem g hg2, hmem⟩
        · rcases hh with hh | hh
          · exact Or.inl ⟨g, List.mem_cons_self g doc, hh⟩
          · exact Or.inr hh
      · rintro (⟨g2, hg2, hmem⟩ | hh)
        · rcases List.mem_cons.mp hg2 with h2 | h2
          · subst h2
            exact Or.inr (Or.inl hmem)
          · exact Or.inl ⟨g2, h2, hmem⟩
        · exact Or.inr (Or.inr hh)

theorem getRulesFrom_keys : ∀ (docs : List RuleDoc) (rules : Catalog) (t : String),
    (alookup (docs.foldl
        (fun rules doc => doc.foldl (fun rules g => addGroup rules g.2) rules) rules) t ≠ none)
      ↔ (∃ doc ∈ docs, ∃ g ∈ doc, t ∈ g.2.tables) ∨ alookup rules t ≠ none := by
  intro docs
  induction docs with
  | nil => intro rules t; simp
  | cons doc docs ih =>
      intro rules t
      rw [List.foldl_cons, ih, docFold_keys]
      constructor
      · rintro (⟨doc2, hd2, hg⟩ | hh)
        · exact Or.inl ⟨doc2, List.mem_cons_of_mem doc hd2, hg⟩
        · rcases hh with hh | hh
          · exact Or.inl ⟨doc, List.mem_cons_self doc docs, hh⟩
          · exact Or.inr hh
      · rintro (⟨doc2, hd2, hg⟩ | hh)
        · rcases List.mem_cons.mp hd2 with h2 | h2
          · subst h2
            exact Or.inr (Or.inl hg)
          · exact Or.inl ⟨doc2, h2, hg⟩
        · exact Or.inr (Or.inr hh)

/-- C7: for every ordered collection of rule-group documents, the catalog
built by getRules (i) has as key set exactly the entity-types named in some
group's `tables` list; (ii) resolves every (entity-type, rule-name) pair to
the last-merged definition among the groups targeting that entity-type, in
document/group order — i.e. each key maps to the merge of the rules of
every group targeting it, rule names unique to either document all
present, last-merged winning on collisions; and (iii) has a non-empty rule
mapping under every key as soon as every group's rule mapping is
non-empty. -/
theorem c7_getRules (docs : List RuleDoc) :
    (∀ t, alookup (getRules docs) t ≠ none
        ↔ ∃ doc ∈ docs, ∃ g ∈ doc, t ∈ g.2.tables)
    ∧ (∀ t n, lookup2 (getRules docs) t n = lastRule (rulesTargeting docs t) n)
    ∧ (∀ t trules, alookup (getRules docs) t = some trules →
        (∀ doc ∈ docs, ∀ g ∈ doc, g.2.rules ≠ []) → trules ≠ []) := by
  have hb : ∀ t n, lookup2 (getRules docs) t n = lastRule (rulesTargeting docs t) n := by
    intro t n
    have := getRulesFrom_lookup2 docs [] t n
    rw [show lookup2 ([] : Catalog) t n = none from rfl, orL_none_right] at this
    exact this
  have ha : ∀ t, alookup (getRules docs) t ≠ none
      ↔ ∃ doc ∈ docs, ∃ g ∈ doc, t ∈ g.2.tables := by
    intro t
    have := getRulesFrom_keys docs [] t
    simpa [alookup] using this
  refine ⟨ha, hb, ?_⟩
  intro t trules htr hne
  obtain ⟨doc, hdoc, g, hg, htab⟩ := (ha t).mp (by rw [htr]; exact fun hh => Option.noConfusion hh)
  obtain ⟨p, hp⟩ : ∃ p, p ∈ g.2.rules := by
    cases hrr : g.2.rules with
    | nil => exact absurd hrr (hne doc hdoc g hg)
    | cons q rest => exact ⟨q, List.mem_cons_self q rest⟩
  have hmem1 : p ∈ docTargeting doc t := by
    rw [docTargeting, List.mem_flatMap]
    exact ⟨g, hg, by rw [if_pos htab]; exact hp⟩
  have hmem2 : p ∈ rulesTargeting docs t := by
    rw [rulesTargeting, List.mem_flatMap]
    exact ⟨doc, hdoc, hmem1⟩
  have hkey : p.1 ∈ (rulesTargeting docs t).map Prod.fst :=
    List.mem_map_of_mem Prod.fst hmem2
  have hlast : lastRule (rulesTargeting docs t) p.1 ≠ none :=
    (lastRule_ne_none_iff (rulesTargeting docs t) p.1).mpr hkey
  intro hnil
  apply hlast
  rw [← hb t p.1]
  unfold lookup2
  rw [htr, hnil]
  rfl

/-- C7 witness: two documents, the second also targeting the first's
entity-type with a colliding rule name; the theorem applied to them, plus
the concrete last-merged-wins evaluation. -/
theorem c7_witness :
    ((∀ t, alookup (getRules
          [[("g1", ⟨["kubernetes_pods"],
              [("r1", .lit (.bool true)), ("shared", .lit (.str "first"))]⟩)],
           [("g2", ⟨["kubernetes_pods", "kubernetes_containers"],
              [("shared", .lit (.str "second"))]⟩)]]) t ≠ none
        ↔ ∃ doc ∈ [[("g1", (⟨["kubernetes_pods"],
              [("r1", Rule.lit (.bool true)), ("shared", Rule.lit (.str "first"))]⟩ : RuleGroup))],
           [("g2", ⟨["kubernetes_pods", "kubernetes_containers"],
              [("shared", Rule.lit (.str "second"))]⟩)]], ∃ g ∈ doc, t ∈ g.2.tables))
    ∧ lookup2 (getRules
          [[("g1", ⟨["kubernetes_pods"],
              [("r1", .lit (.bool true)), ("shared", .lit (.str "first"))]⟩)],
           [("g2", ⟨["kubernetes_pods", "kubernetes_containers"],
              [("shared", .lit (.str "second"))]⟩)]]) "kubernetes_pods" "shared"
        = some (.lit (.str "second"))
    ∧ lookup2 (getRules
          [[("g1", ⟨["kubernetes_pods"],
              [("r1", .lit (.bool true)), ("shared", .lit (.str "first"))]⟩)],
           [("g2", ⟨["kubernetes_pods", "kubernetes_containers"],
              [("shared", .lit (.str "second"))]⟩)]]) "kubernetes_pods" "r1"
        = some (.lit (.bool true)) :=
  ⟨(c7_getRules _).1, rfl, rfl⟩

/-! C9: bucket placement, counts and order. -/

theorem datasetAdd_bucket (tables : Dataset) (nm dy : String) (row : Row) (t d : String) :
    bucket (datasetAdd tables nm dy row) t d
      = if t = nm ∧ d = dy then some ((bucket tables t d).getD [] ++ [row])
        else bucket tables t d := by
  unfold bucket datasetAdd
  rw [alookup_objSet]
  rcases eq_or_ne t nm with h1 | h1
  · subst h1
    rw [if_pos rfl]
    show alookup (objSet ((alookup tables t).getD []) dy
        ((alookup ((alookup tables t).getD []) dy).getD [] ++ [row])) d = _
    rw [alookup_objSet]
    rcases eq_or_ne d dy with h2 | h2
    · subst h2
      rw [if_pos rfl, if_pos ⟨rfl, rfl⟩]
      cases halo : alookup tables t with
      | none => simp [alookup]
      | some parts => simp
    · rw [if_neg h2, if_neg (fun hh => h2 hh.2)]
      cases halo : alookup tables t with
      | none => simp [alookup]
      | some parts => simp
  · rw [if_neg h1, if_neg (fun hh => h1 hh.1)]

theorem partsCount_add (parts : Partitions) : ∀ (dy : String) (row : Row),
    partsCount (objSet parts dy ((alookup parts dy).getD [] ++ [row]))
      = partsCount parts + 1 := by
  induction parts with
  | nil => intro dy row; simp [partsCount, objSet, alookup]
  | cons dp rest ih =>
      intro dy row
      obtain ⟨d0, rs⟩ := dp
      simp only [alookup, objSet]
      rcases eq_or_ne d0 dy with h | h
      · subst h
        rw [if_pos rfl, if_pos rfl]
        simp only [partsCount, List.map_cons, List.sum_cons, List.length_append,
          List.length_singleton, Option.getD_some]
        omega
      · rw [if_neg h, if_neg h]
        simp only [partsCount, List.map_cons, List.sum_cons]
        have := ih dy row
        simp only [partsCount] at this
        omega

theorem rowCount_datasetAdd (tables : Dataset) : ∀ (nm dy : String) (row : Row),
    rowCount (datasetAdd tables nm dy row) = rowCount tables + 1 := by
  induction tables with
  | nil =>
      intro nm dy row
      simp [rowCount, datasetAdd, objSet, alookup, partsCount]
  | cons tp rest ih =>
      intro nm dy row
      obtain ⟨k, ps⟩ := tp
      simp only [datasetAdd, alookup, objSet]
      rcases eq_or_ne k nm with h | h
      · subst h
        rw [if_pos rfl, if_pos rfl]
        simp only [rowCount, List.map_cons, List.sum_cons, Option.getD_some]
        rw [partsCount_add]
        omega
      · rw [if_neg h, if_neg h]
        simp only [rowCount, List.map_cons, List.sum_cons]
        have := ih nm dy row
        simp only [datasetAdd] at this
        simp only [rowCount] at this
        omega

theorem selRows_cons (r : IncomingRecord) (rest : List IncomingRecord) (t d : String)
    (row : Row) (hb : buildRow r = .ok row) :
    selRows (r :: rest) t d
      = (if r.name = t ∧ getDay r.unixTime = d then [row] else []) ++ selRows rest t d := by
  simp only [selRows, List.filterMap_cons]
  rcases h : decide (r.name = t ∧ getDay r.unixTime = d) with _ | _
  · have h2 : ¬ (r.name = t ∧ getDay r.unixTime = d) := of_decide_eq_false h
    rw [if_neg h2, if_neg h2]
    simp
  · have h2 : r.name = t ∧ getDay r.unixTime = d := of_decide_eq_true h
    rw [if_pos h2, if_pos h2, hb]
    simp [Except.toOption]

theorem parseResultAux_spec : ∀ (records : List IncomingRecord) (tables out : Dataset),
    parseResultAux tables records = .ok out →
    (rowCount out = rowCount tables + records.length)
    ∧ (∀ t d, (bucket out t d).getD [] = (bucket tables t d).getD [] ++ selRows records t d)
    ∧ (∀ t d, bucket out t d ≠ none ↔ (bucket tables t d ≠ none ∨ selRows records t d ≠ [])) := by
  intro records
  induction records with
  | nil =>
      intro tables out h
      simp only [parseResultAux] at h
      cases h
      refine ⟨by simp, ?_, ?_⟩
      · intro t d; simp [selRows]
      · intro t d; simp [selRows]
  | cons r rest ih =>
      intro tables out h
      simp only [parseResultAux] at h
      cases hb : buildRow r with
      | error e => rw [hb] at h; cases h
      | ok row =>
          rw [hb] at h
          obtain ⟨hcount, hgetd, hne⟩ := ih (datasetAdd tables r.name (getDay r.unixTime) row) out h
          refine ⟨?_, ?_, ?_⟩
          · rw [hcount, rowCount_datasetAdd]
            simp only [List.length_cons]
            omega
          · intro t d
            rw [hgetd t d, datasetAdd_bucket, selRows_cons r rest t d row hb]
            rcases eq_or_ne t r.name with h1 | h1
            · rcases eq_or_ne d (getDay r.unixTime) with h2 | h2
              · rw [if_pos ⟨h1, h2⟩, if_pos ⟨h1.symm, h2.symm⟩]
                simp [List.append_assoc]
              · rw [if_neg (fun hh => h2 hh.2), if_neg (fun hh => h2 hh.2.symm)]
                simp
            · rw [if_neg (fun hh => h1 hh.1), if_neg (fun hh => h1 hh.1.symm)]
              simp
          · intro t d
            rw [hne t d, datasetAdd_bucket, selRows_cons r rest t d row hb]
            rcases eq_or_ne t r.name with h1 | h1
            · rcases eq_or_ne d (getDay r.unixTime) with h2 | h2
              · rw [if_pos ⟨h1, h2⟩, if_pos ⟨h1.symm, h2.symm⟩]
                simp
              · rw [if_neg (fun hh => h2 hh.2), if_neg (fun hh => h2 hh.2.symm)]
                simp
            · rw [if_neg (fun hh => h1 hh.1), if_neg (fun hh => h1 hh.1.symm)]
              simp

/-- C9: for a well-formed batch (one parseResult accepts), the total number
of rows over all buckets equals the number of input records; every day
bucket present in the dataset holds exactly the rows of the records whose
(name, getDay unixTime) address that bucket, in input order — so each
record's row lands in exactly the one bucket dataset[name][day] — and no
bucket is empty; moreover every record's own bucket exists. -/
theorem c9_parseResult (records : List IncomingRecord) (tables : Dataset)
    (hok : parseResult records = .ok tables) :
    rowCount tables = records.length
    ∧ (∀ t parts d rows, alookup tables t = some parts → alookup parts d = some rows →
        rows = selRows records t d ∧ rows ≠ [])
    ∧ (∀ r ∈ records, bucket tables r.name (getDay r.unixTime) ≠ none) := by
  obtain ⟨hcount, hgetd, hne⟩ := parseResultAux_spec records [] tables hok
  refine ⟨by rw [hcount]; simp [rowCount], ?_, ?_⟩
  · intro t parts d rows hp hd
    have hbucket : bucket tables t d = some rows := by
      unfold bucket
      rw [hp]
      exact hd
    have h1 : rows = selRows records t d := by
      have := hgetd t d
      rw [hbucket] at this
      simpa [bucket, alookup] using this
    refine ⟨h1, ?_⟩
    have h2 := (hne t d).mp (by rw [hbucket]; exact fun hh => Option.noConfusion hh)
    rcases h2 with h2 | h2
    · exact absurd (rfl : bucket ([] : Dataset) t d = none) h2
    · rw [h1]; exact h2
  · intro r hr
    rw [hne r.name (getDay r.unixTime)]
    right
    have hcols : ∀ kv ∈ r.columns, ∃ v, normalizeValue kv.2 = .ok v :=
      (parseResultAux_ok_iff records []).mp ⟨tables, hok⟩ r hr
    obtain ⟨row, hrow⟩ := (buildRowAux_ok_iff r.columns (rowInit r)).mpr hcols
    have hmem : row ∈ selRows records r.name (getDay r.unixTime) := by
      rw [selRows, List.mem_filterMap]
      refine ⟨r, hr, ?_⟩
      rw [if_pos ⟨rfl, rfl⟩, show buildRow r = buildRowAux (rowInit r) r.columns from rfl,
        hrow]
      rfl
    intro hnil
    rw [hnil] at hmem
    cases hmem

/-- C9 witness: a concrete three-record batch — two records in the same
(entity-type, day) bucket, a third in another entity-type — satisfies the
bucket characterisation. -/
theorem c9_witness :
    ∃ tables,
      parseResult
        [⟨"kubernetes_pods", "c1", 60, some "added", [("a", JVal.str "1")]⟩,
         ⟨"kubernetes_pods", "c2", 120, some "removed", [("a", JVal.str "2")]⟩,
         ⟨"kubernetes_events", "c3", 86400, some "added", []⟩] = .ok tables
      ∧ rowCount tables = 3
      ∧ (∀ t parts d rows, alookup tables t = some parts → alookup parts d = some rows →
          rows = selRows
            [⟨"kubernetes_pods", "c1", 60, some "added", [("a", JVal.str "1")]⟩,
             ⟨"kubernetes_pods", "c2", 120, some "removed", [("a", JVal.str "2")]⟩,
             ⟨"kubernetes_events", "c3", 86400, some "added", []⟩] t d ∧ rows ≠ []) := by
  have hok : parseResult
      [⟨"kubernetes_pods", "c1", 60, some "added", [("a", JVal.str "1")]⟩,
       ⟨"kubernetes_pods", "c2", 120, some "removed", [("a", JVal.str "2")]⟩,
       ⟨"kubernetes_events", "c3", 86400, some "added", []⟩]
      = .ok [("kubernetes_pods",
              [("19700101",
                [[("calendarTime", JVal.str "c1"), ("unixTime", JVal.num 60),
                  ("added", JVal.bool true), ("a", JVal.str "1")],
                 [("calendarTime", JVal.str "c2"), ("unixTime", JVal.num 120),
                  ("added", JVal.bool false), ("a", JVal.str "2")]])]),
             ("kubernetes_events",
              [("19700102",
                [[("calendarTime", JVal.str "c3"), ("unixTime", JVal.num 86400),
                  ("added", JVal.bool true)]])])] := rfl
  exact ⟨_, hok, (c9_parseResult _ _ hok).1, (c9_parseResult _ _ hok).2.1⟩

/-! C4: getDay is the UTC calendar date formatted YYYYMMDD. -/

theorem daysInYear_pos (y : Nat) : 0 < daysInYear y := by
  unfold daysInYear
  split <;> omega

theorem daysInYear_ge (y : Nat) : 365 ≤ daysInYear y := by
  unfold daysInYear
  split <;> omega

theorem sumYears_ge (y0 : Nat) : ∀ k : Nat, k ≤ sumYears y0 k := by
  intro k
  induction k generalizing y0 with
  | zero => simp [sumYears]
  | succ k ih =>
      have h1 := daysInYear_pos y0
      have h2 := ih (y0 + 1)
      simp only [sumYears]
      omega

theorem findYearAux_spec : ∀ (k fuel y s : Nat), k < fuel → s < daysInYear (y + k) →
    findYearAux fuel y (sumYears y k + s) = (y + k, s) := by
  intro k
  induction k with
  | zero =>
      intro fuel y s hfuel hs
      cases fuel with
      | zero => omega
      | succ f =>
          simp only [sumYears, Nat.zero_add, findYearAux]
          rw [if_pos (by simpa using hs)]
          simp
  | succ k ih =>
      intro fuel y s hfuel hs
      cases fuel with
      | zero => omega
      | succ f =>
          simp only [sumYears, findYearAux]
          have hpos := daysInYear_pos y
          rw [if_neg (by omega)]
          have harith : daysInYear y + sumYears (y + 1) k + s - daysInYear y
              = sumYears (y + 1) k + s := by omega
          rw [harith]
          have hs2 : s < daysInYear (y + 1 + k) := by
            have : y + 1 + k = y + (k + 1) := by omega
            rw [this]
            exact hs
          have := ih f (y + 1) s (by omega) hs2
          rw [this]
          have : y + 1 + k = y + (k + 1) := by omega
          rw [this]

theorem findYear_spec (y0 k s : Nat) (hs : s < daysInYear (y0 + k)) :
    findYear y0 (sumYears y0 k + s) = (y0 + k, s) := by
  unfold findYear
  exact findYearAux_spec k (sumYears y0 k + s + 1) y0 s
    (by have := sumYears_ge y0 k; omega) hs

theorem monthLengths_sum (y : Nat) : (monthLengths y).sum = daysInYear y := by
  cases h : isLeap y <;> simp [monthLengths, daysInYear, h]

theorem findMonth_spec : ∀ (pre post : List Nat) (len m r : Nat), r < len →
    findMonth (pre ++ len :: post) m (pre.sum + r) = (m + pre.length, r + 1) := by
  intro pre
  induction pre with
  | nil =>
      intro post len m r hr
      simp only [List.nil_append, List.sum_nil, Nat.zero_add, findMonth]
      rw [if_pos hr]
      simp
  | cons p pre ih =>
      intro post len m r hr
      simp only [List.cons_append, List.sum_cons, findMonth]
      rw [if_neg (by omega)]
      have harith : p + pre.sum + r - p = pre.sum + r := by omega
      rw [harith]
      show findMonth (pre ++ len :: post) (m + 1) (pre.sum + r) = (m + (p :: pre).length, r + 1)
      rw [ih post len (m + 1) r hr]
      simp only [List.length_cons]
      have : m + 1 + pre.length = m + (pre.length + 1) := by omega
      rw [this]

theorem monthLengths_split (y m : Nat) (h1 : 1 ≤ m) (h2 : m ≤ 12) :
    monthLengths y
      = (monthLengths y).take (m - 1) ++ daysInMonth y m :: (monthLengths y).drop m
    ∧ ((monthLengths y).take (m - 1)).length = m - 1 := by
  interval_cases m <;> exact ⟨rfl, rfl⟩

theorem monthDaysBefore_lt (y m d : Nat) (h1 : 1 ≤ m) (h2 : m ≤ 12) (h3 : 1 ≤ d)
    (h4 : d ≤ daysInMonth y m) :
    monthDaysBefore y m + (d - 1) < daysInYear y := by
  obtain ⟨hsplit, _⟩ := monthLengths_split y m h1 h2
  have hsum : (monthLengths y).sum
      = ((monthLengths y).take (m - 1)).sum + daysInMonth y m
        + ((monthLengths y).drop m).sum := by
    conv_lhs => rw [hsplit]
    simp [List.sum_append]
    omega
  have := monthLengths_sum y
  unfold monthDaysBefore
  omega

theorem utcCivil_dateToDays (y m d : Nat) (hv : dateValid y m d) :
    utcCivil (dateToDays y m d) = (y, m, d) := by
  obtain ⟨hy, hm1, hm2, hd1, hd2⟩ := hv
  have hdoy : monthDaysBefore y m + (d - 1) < daysInYear y :=
    monthDaysBefore_lt y m d hm1 hm2 hd1 hd2
  have hy2 : 1970 + (y - 1970) = y := by omega
  have hfy : findYear 1970 (dateToDays y m d) = (y, monthDaysBefore y m + (d - 1)) := by
    unfold dateToDays
    rw [Nat.add_assoc]
    have := findYear_spec 1970 (y - 1970) (monthDaysBefore y m + (d - 1))
      (by rw [hy2]; exact hdoy)
    rw [this, hy2]
  have hfm : findMonth (monthLengths y) 1 (monthDaysBefore y m + (d - 1)) = (m, d) := by
    obtain ⟨hsplit, hlen⟩ := monthLengths_split y m hm1 hm2
    have hfm2 := findMonth_spec ((monthLengths y).take (m - 1)) ((monthLengths y).drop m)
      (daysInMonth y m) 1 (d - 1) (by omega)
    calc findMonth (monthLengths y) 1 (monthDaysBefore y m + (d - 1))
        = findMonth ((monthLengths y).take (m - 1)
            ++ daysInMonth y m :: (monthLengths y).drop m) 1
            (((monthLengths y).take (m - 1)).sum + (d - 1)) := by
          conv_lhs => rw [hsplit]
          rfl
      _ = (1 + ((monthLengths y).take (m - 1)).length, d - 1 + 1) := hfm2
      _ = (m, d) := by
          rw [hlen]
          have e1 : 1 + (m - 1) = m := by omega
          have e2 : d - 1 + 1 = d := by omega
          rw [e1, e2]
  unfold utcCivil
  rw [hfy]
  show (y, (findMonth (monthLengths y) 1 (monthDaysBefore y m + (d - 1))).1,
        (findMonth (monthLengths y) 1 (monthDaysBefore y m + (d - 1))).2) = (y, m, d)
  rw [hfm]

/-- Digit count of `Nat.toDigitsCore`: a number between `10^k` and
`10^(k+1) - 1` contributes exactly `k + 1` digit characters. -/
theorem toDigitsCore_length (k : Nat) : ∀ (n fuel : Nat) (ds : List Char),
    10 ^ k ≤ n → n < 10 ^ (k + 1) → n < fuel →
    (Nat.toDigitsCore 10 fuel n ds).length = ds.length + (k + 1) := by
  induction k with
  | zero =>
    intro n fuel ds h1 h2 h3
    obtain ⟨f, rfl⟩ : ∃ f, fuel = f + 1 := ⟨fuel - 1, by omega⟩
    have hdiv : n / 10 = 0 := Nat.div_eq_of_lt (by simpa using h2)
    simp [Nat.toDigitsCore, hdiv]
  | succ k ih =>
    intro n fuel ds h1 h2 h3
    have hpow1 : 10 ^ (k + 1) = 10 ^ k * 10 := pow_succ 10 k
    have hpow2 : 10 ^ (k + 1 + 1) = 10 ^ (k + 1) * 10 := pow_succ 10 (k + 1)
    have hpos : 1 ≤ 10 ^ k := Nat.one_le_pow _ _ (by norm_num)
    obtain ⟨f, rfl⟩ : ∃ f, fuel = f + 1 := ⟨fuel - 1, by omega⟩
    have hdiv : ¬ n / 10 = 0 := by omega
    simp only [Nat.toDigitsCore]
    rw [if_neg hdiv]
    rw [ih (n / 10) f (Nat.digitChar (n % 10) :: ds) (by omega) (by omega) (by omega)]
    simp
    omega

/-- Years 1000–9999 render as exactly four characters. -/
theorem toString_nat_length_four (y : Nat) (h1 : 1000 ≤ y) (h2 : y ≤ 9999) :
    (toString y).length = 4 := by
  have e3 : (10 : Nat) ^ 3 = 1000 := by norm_num
  have e4 : (10 : Nat) ^ (3 + 1) = 10000 := by norm_num
  have h := toDigitsCore_length 3 y (y + 1) [] (by omega) (by omega) (by omega)
  have e : (toString y).length = (Nat.toDigitsCore 10 (y + 1) y []).length := rfl
  rw [e, h]
  rfl

/-- `pad2` produces exactly two characters on 0–99. -/
theorem pad2_length (n : Nat) (h : n ≤ 99) : (pad2 n).length = 2 := by
  unfold pad2
  split
  · rename_i hlt
    have h1 : (toString n).length = 1 := by interval_cases n <;> rfl
    have h2 : ("0" ++ toString n).length = "0".length + (toString n).length :=
      String.length_append _ _
    rw [h2, h1]
    rfl
  · rename_i hge
    have h10 : 10 ≤ n := by omega
    interval_cases n <;> rfl

theorem getD31 (l : List Nat) (i : Nat) (h : ∀ x ∈ l, x ≤ 31) : l.getD i 0 ≤ 31 := by
  rw [List.getD_eq_getElem?_getD]
  rcases Nat.lt_or_ge i l.length with hi | hi
  · rw [List.getElem?_eq_getElem hi, Option.getD_some]
    exact h _ (List.getElem_mem hi)
  · rw [List.getElem?_eq_none hi, Option.getD_none]
    omega

theorem daysInMonth_le (y m : Nat) : daysInMonth y m ≤ 31 := by
  unfold daysInMonth
  refine getD31 _ _ ?_
  intro x hx
  unfold monthLengths at hx
  fin_cases hx <;> (try split) <;> omega

/-- The JS `Math.floor(date/86400000)` step recovers the day count from any
second of the day. -/
theorem epoch_days (D s : Nat) (hs : s < 86400) :
    ((Int.ofNat (D * 86400 + s) * 1000).fdiv 86400000).toNat = D := by
  have e0 : (D * 86400 + s) * 1000 = D * 86400000 + s * 1000 := by ring
  have e1 : Int.ofNat (D * 86400 + s) * 1000 = Int.ofNat (D * 86400000 + s * 1000) := by
    calc Int.ofNat (D * 86400 + s) * 1000
        = Int.ofNat (D * 86400 + s) * Int.ofNat 1000 := rfl
      _ = Int.ofNat ((D * 86400 + s) * 1000) := (Int.ofNat_mul _ _).symm
      _ = Int.ofNat (D * 86400000 + s * 1000) := by rw [e0]
  rw [e1]
  have e2 : (86400000 : Int) = Int.ofNat 86400000 := rfl
  rw [e2]
  simp only [Int.ofNat_eq_natCast]
  rw [← Int.ofNat_fdiv]
  have e3 : (D * 86400000 + s * 1000) / 86400000 = D := by omega
  rw [e3]
  rfl

/-- C4: for every valid UTC date `(y, m, d)` with `1970 ≤ y ≤ 9999` and any
second `s` of that day, `getDay` on the unixTime `dateToDays y m d * 86400 + s`
returns exactly the date formatted `YYYYMMDD`: a four-digit year followed by
the zero-padded two-digit month and day (lengths proved alongside).  The model
`getDay` takes only the unixTime — the calendarTime string does not enter.  At
the UTC day boundary, unixTime 1620518399 (2021-05-08T23:59:59Z) yields
"20210508" and one second later yields "20210509". -/
theorem c4_getDay (y m d s : Nat) (hv : dateValid y m d) (hy : y ≤ 9999)
    (hs : s < 86400) :
    getDay (Int.ofNat (dateToDays y m d * 86400 + s)) = toString y ++ pad2 m ++ pad2 d
    ∧ (toString y).length = 4 ∧ (pad2 m).length = 2 ∧ (pad2 d).length = 2
    ∧ getDay 1620518399 = "20210508" ∧ getDay 1620518400 = "20210509" := by
  obtain ⟨hy1970, hm1, hm2, hd1, hd2⟩ := hv
  have hdm := daysInMonth_le y m
  refine ⟨?_, toString_nat_length_four y (by omega) hy,
    pad2_length m (by omega), pad2_length d (by omega), rfl, rfl⟩
  simp only [getDay]
  rw [epoch_days _ _ hs, utcCivil_dateToDays y m d ⟨hy1970, hm1, hm2, hd1, hd2⟩]

/-- C4 witness: the date 2021-05-08 at midday second 43200. -/
theorem c4_witness :
    getDay (Int.ofNat (dateToDays 2021 5 8 * 86400 + 43200))
      = toString 2021 ++ pad2 5 ++ pad2 8
    ∧ (toString 2021).length = 4 ∧ (pad2 5).length = 2 ∧ (pad2 8).length = 2
    ∧ getDay 1620518399 = "20210508" ∧ getDay 1620518400 = "20210509" :=
  c4_getDay 2021 5 8 43200 ⟨by omega, by omega, by omega, by omega, by decide⟩
    (by omega) (by omega)
